import Mathlib

/-!
# gemBS `tools/gemBS_plugins/output.c`: a shallow embedding

The C functions `calc_phred`, `get_prob_dist` and the parts of `output_cpg` (the
per-sample probability, the site decision, the mapping quality, the aggregated
counts and the text written for a sample) are embedded as Lean functions.

* A `double *` scratch array is a map from cell index to content (`Buf`).  The
  three arrays `Q[0]`, `Q[1]`, `Q[2]` are distinct, non-overlapping arrays in
  the caller, so each one is a value of its own; an assignment `q[k] = v` is
  `Function.update q k v`.
* `double` arithmetic is exact: the distribution code is generic over a
  commutative ring (run it over `ℚ`), and `calc_phred`, which calls `log`, is
  over `ℝ`.
* A sample count `ns` is a natural number.  The conversion to `int` of line 51
  and the `int32_t` sums `ct[0 .. 3]` are 32-bit (`int32_of_double`, `wrap32`);
  the other `int` values are unbounded integers.
* The text of a sample is the list of the `fprintf` pieces (`Tok`): the literal
  text of the format strings and the arguments of the conversions.
-/

namespace GemBS

/-- A scratch array of the caller (a C `double *`): cell index to content. -/
abbrev Buf (α : Type) := Nat → α

/-- The C conversion `(int)x` of a `double`: truncation toward zero, without the
bound of the 32-bit range (`int32_of_double` has it). -/
def int_of_double {α : Type} [LinearOrderedField α] [FloorRing α] (x : α) : Int :=
  if 0 ≤ x then ⌊x⌋ else ⌈x⌉

/-- The conversion `(int)x` of a `double` to a 32-bit `int`: truncation toward
zero when the truncated value fits in 32 bits; otherwise C leaves the conversion
undefined, and the result is `INT_MIN`, the value that the conversion
instruction of x86-64 gives. -/
def int32_of_double {α : Type} [LinearOrderedField α] [FloorRing α] (x : α) : Int :=
  if -2147483648 ≤ int_of_double x ∧ int_of_double x ≤ 2147483647 then int_of_double x
  else -2147483648

/-- The value that 32-bit two's-complement arithmetic (`int32_t`) keeps of the
integer `x`. -/
def wrap32 (x : Int) : Int := (x + 2147483648) % 4294967296 - 2147483648

/-- Modelled from the spec: the macro `LOG10` of `mextr.h`, which is not part of
the sources at hand; section 4.2 of the specification has the logarithm
"divided by `ln(10)`". -/
noncomputable def LOG10 : ℝ := Real.log 10

/-- Source lines 8-16, `int calc_phred(double z)`. -/
noncomputable def calc_phred (z : ℝ) : Int :=
  if z ≤ 0 then 255
  else
    let phred := int_of_double (-10 * Real.log z / LOG10)
    if phred > 255 then 255 else phred

/-- Source line 27, the inner loop of `get_prob_dist`:
`for(int k = 1; k <= ix; k++) q1[k] = q0[k - 1] * z + q0[k] * (1.0 - z);` -/
def get_prob_dist_inner {α : Type} [CommRing α] (q0 : Buf α) (z : α) (ix : Nat)
    (q1 : Buf α) : Buf α :=
  (List.range' 1 ix).foldl
    (fun q1 k => Function.update q1 k (q0 (k - 1) * z + q0 k * (1 - z))) q1

/-- Source lines 25-31, one pass of the outer loop of `get_prob_dist` for the
sample `ix`; the state is the pair of pointers `(q0, q1)`, swapped at the end. -/
def get_prob_dist_step {α : Type} [CommRing α] (p : Buf α) (st : Buf α × Buf α)
    (ix : Nat) : Buf α × Buf α :=
  let q0 := st.1
  let q1 := st.2
  let z := p ix
  let q1 := Function.update q1 0 (q0 0 * (1 - z))
  let q1 := get_prob_dist_inner q0 z ix q1
  let q1 := Function.update q1 (ix + 1) (q0 ix * z)
  (q1, q0)

/-- Source lines 20-24 and 32, the state of `get_prob_dist` when the outer loop
has run for the samples `0 .. n-1`. -/
def get_prob_dist_loop {α : Type} [CommRing α] (n : Nat) (Q : Fin 3 → Buf α) :
    Buf α × Buf α :=
  (List.range n).foldl (get_prob_dist_step (Q 2)) (Function.update (Q 0) 0 1, Q 1)

/-- Source lines 18-34, `static double *get_prob_dist(int ns, double *Q[])`: the
array that the returned pointer `q0` designates. -/
def get_prob_dist {α : Type} [CommRing α] (ns : Nat) (Q : Fin 3 → Buf α) : Buf α :=
  (get_prob_dist_loop ns Q).1

/-- Source lines 50-52 of `output_cpg`:
`int min_n = args->min_num; int n1 = (int)(args->min_prop * (double)ns + 0.5);
if(n1 > min_n) min_n = n1;` -/
def output_cpg_min_n {α : Type} [LinearOrderedField α] [FloorRing α]
    (min_num : Int) (min_prop : α) (ns : Nat) : Int :=
  let min_n := min_num
  let n1 := int32_of_double (min_prop * (ns : α) + 1 / 2)
  if n1 > min_n then n1 else min_n

/-- Source lines 70 and 198 of `output_cpg`, the loop
`for(int i = 1; i <= ns && i < min_n; i++) z += p[i];` entered with the
counter at `i` and the accumulator at `z`. -/
def output_cpg_sum {α : Type} [CommRing α] (ns : Nat) (min_n : Int) (p : Buf α)
    (i : Nat) (z : α) : α :=
  if i ≤ ns ∧ (i : Int) < min_n then output_cpg_sum ns min_n p (i + 1) (z + p i) else z
termination_by ns + 1 - i
decreasing_by omega

/-- Source lines 68-70 (and 196-198) of `output_cpg`:
`double *p = get_prob_dist(ns, Q); double z = p[0];
for(int i = 1; i <= ns && i < min_n; i++) z += p[i];` -/
def output_cpg_z {α : Type} [CommRing α] (ns : Nat) (min_n : Int)
    (Q : Fin 3 → Buf α) : α :=
  let p := get_prob_dist ns Q
  let z := p 0
  output_cpg_sum ns min_n p 1 z

/-- Source lines 71 and 199 of `output_cpg`: `int phred = calc_phred(z);`. -/
noncomputable def output_cpg_phred (ns : Nat) (min_n : Int) (Q : Fin 3 → Buf ℝ) : Int :=
  calc_phred (output_cpg_z ns min_n Q)


/-- The exact distribution after `n` samples as a recurrence on values, without
buffers: the proofs relate the buffers of `get_prob_dist` to it. -/
def dist {α : Type} [CommRing α] (p : Nat → α) : Nat → Nat → α
  | 0, k => if k = 0 then 1 else 0
  | n + 1, k => (if k = 0 then 0 else dist p n (k - 1) * p n) + dist p n k * (1 - p n)

/-- The Poisson-binomial probability of section 4.1 of the specification: the
sum, over the subsets `S` of the samples `0 .. N-1` with `k` elements, of the
product of `p i` for `i` in `S` times the product of `1 - p i` for the others. -/
def poisson_binomial {α : Type} [CommRing α] (p : Nat → α) (N k : Nat) : α :=
  ∑ S ∈ Finset.powersetCard k (Finset.range N),
    (∏ i ∈ S, p i) * ∏ i ∈ Finset.range N \ S, (1 - p i)

/-- Truncation in the words of section 4.2 of the specification ("truncating,
not rounding"): the fractional part is dropped, so the magnitude is the integer
part of `|x|` and the sign is that of `x`. -/
noncomputable def trunc (x : ℝ) : Int :=
  if 0 ≤ x then (⌊|x|⌋₊ : Int) else -(⌊|x|⌋₊ : Int)

/-- The Phred score in the words of section 4.2 of the specification:
`-10 * log10 z` computed with natural logarithms, truncated, capped at 255, and
255 for `z ≤ 0`. -/
noncomputable def calc_phred_spec (z : ℝ) : Int :=
  if z ≤ 0 then 255 else min 255 (trunc (-10 * Real.log z / Real.log 10))

/-- Scratch arrays for the worked examples: `Q[0]` and `Q[1]` hold stale
values (7 and 9), `Q[2]` holds the probabilities of the list. -/
def scratch {α : Type} [Field α] (l : List α) : Fin 3 → Buf α :=
  ![fun _ => 7, fun _ => 9, fun i => l.getD i 0]

/-- Modelled from the spec: the struct `gt_meth` of `mextr.h`, which is not part
of the sources at hand; section 3 of the specification (SampleCall) has 8 read
counts, 10 genotype log-probabilities, the index of the maximum-likelihood
genotype and a skip flag. -/
structure gt_meth where
  /-- The field `counts[8]` of 32-bit integers. -/
  counts : Nat → Int
  /-- The field `gt_prob[10]`. -/
  gt_prob : Nat → ℝ
  /-- The field `max_gt`. -/
  max_gt : Nat
  /-- The field `skip`. -/
  skip : Bool

/-- Modelled from the spec: the selection modes of `mextr.h` (`SELECT_HOM` and
the other one), section 4.3: "strict-homozygous" or
"heterozygous-inclusive". -/
inductive sel_mode where
  | SELECT_HOM
  | SELECT_HET
  deriving DecidableEq

/-- Source lines 55-66 of `output_cpg`, the value `z` stored in `Q[2][ix]` for
the forward call `g1` and the reverse call `g2` of one sample. -/
noncomputable def output_cpg_prob (min_inform : Int) (sel : sel_mode) (g1 g2 : gt_meth) : ℝ :=
  if !(g1.skip || g2.skip) then
    if g1.counts 5 + g1.counts 7 ≥ min_inform ∨ g2.counts 6 + g1.counts 4 ≥ min_inform then
      if sel = sel_mode.SELECT_HOM then Real.exp (g1.gt_prob 4 + g2.gt_prob 7)
      else
        (Real.exp (g1.gt_prob 1) + Real.exp (g1.gt_prob 4) + Real.exp (g1.gt_prob 5) +
            Real.exp (g1.gt_prob 6)) *
          (Real.exp (g2.gt_prob 2) + Real.exp (g2.gt_prob 5) + Real.exp (g2.gt_prob 7) +
            Real.exp (g2.gt_prob 8))
    else 0
  else 0

/-- Source lines 54-67 of `output_cpg`: the loop over the samples that fills
`Q[2][0 .. ns-1]`; `gt1` is `sample_gt[idx]` and `gt2` is `sample_gt[idx ^ 1]`. -/
noncomputable def output_cpg_fill (ns : Nat) (min_inform : Int) (sel : sel_mode)
    (gt1 gt2 : Nat → gt_meth) (Q : Fin 3 → Buf ℝ) : Fin 3 → Buf ℝ :=
  (List.range ns).foldl
    (fun Q ix => Function.update Q 2
      (Function.update (Q 2) ix (output_cpg_prob min_inform sel (gt1 ix) (gt2 ix)))) Q

/-- Source line 72 of `output_cpg`: the test `phred >= args->sel_thresh` that
lets the site through. -/
def output_cpg_select (phred sel_thresh : Int) : Bool := decide (phred ≥ sel_thresh)

/-- Source line 45, `gt_iupac = "AMRWCSYGKT"`, read at index `i`. -/
def gt_iupac (i : Nat) : Char := "AMRWCSYGKT".toList.getD i (Char.ofNat 0)

/-- Source line 46, the table `gt_msk`, read at index `i`. -/
def gt_msk (i : Nat) : Nat :=
  [0x11, 0xb3, 0x55, 0x99, 0xa2, 0xf6, 0xaa, 0x54, 0xdc, 0x88].getD i 0

/-- Source lines 36-40, the table `trans_base[256]`: the entries without an
initialiser are 0. -/
def trans_base (c : Char) : Char :=
  match c with
  | 'A' => 'T' | 'C' => 'G' | 'G' => 'C' | 'T' => 'A'
  | 'Y' => 'R' | 'R' => 'Y' | 'S' => 'S' | 'W' => 'W' | 'K' => 'M' | 'M' => 'K'
  | 'B' => 'V' | 'V' => 'B' | 'D' => 'H' | 'H' => 'D' | 'N' => 'N' | '.' => '.'
  | _ => Char.ofNat 0

/-- The 16 codes that `trans_base` has an initialiser for. -/
def trans_codes : List Char :=
  ['A', 'C', 'G', 'T', 'Y', 'R', 'S', 'W', 'K', 'M', 'B', 'V', 'D', 'H', 'N', '.']

/-- Source lines 221-224 of `output_cpg`: the three context characters at
`cx_p`, complemented and reversed into `tmp`. -/
def output_cpg_tmp (cx_p : Nat → Char) : Nat → Char :=
  let tmp : Nat → Char := fun _ => Char.ofNat 0
  let tmp := Function.update tmp 2 (trans_base (cx_p 0))
  let tmp := Function.update tmp 1 (trans_base (cx_p 1))
  let tmp := Function.update tmp 0 (trans_base (cx_p 2))
  tmp

/-- A division of doubles that the caller must guard: no result when the
divisor is 0. -/
noncomputable def guarded_div (a b : ℝ) : Option ℝ := if b = 0 then none else some (a / b)

/-- Source lines 93-97 of `output_cpg`: the read totals `n1`, `n2` of the two
strands, summed over the 8 counts. -/
noncomputable def output_cpg_totals (g1 g2 : gt_meth) : ℝ × ℝ :=
  (List.range 8).foldl
    (fun n k => (n.1 + ((g1.counts k : Int) : ℝ), n.2 + ((g2.counts k : Int) : ℝ))) (0, 0)

/-- Source lines 90-104 of `output_cpg` (combined mode): the mapping quality
`mq` of sample `ix`; `mq_p1`, `mq_p2` are the two `MQ` arrays, `none` for a
`NULL` pointer.  The result is `none` when a division by 0 is reached. -/
noncomputable def output_cpg_mq (mq_p1 mq_p2 : Option (Nat → Int)) (g1 g2 : gt_meth)
    (ix : Nat) : Option Int :=
  let mq : Int := -1
  match mq_p1 with
  | some a1 =>
    match mq_p2 with
    | some a2 =>
      let n := output_cpg_totals g1 g2
      let n1 := n.1
      let n2 := n.2
      if n1 + n2 > 0 then
        let mq1 : ℝ := ((a1 ix : Int) : ℝ)
        let mq2 : ℝ := ((a2 ix : Int) : ℝ)
        (guarded_div (mq1 * mq1 * n1 + mq2 * mq2 + n2) (n1 + n2)).map
          fun r => int_of_double (1 / 2 + Real.sqrt r)
      else some mq
    | none => some (a1 ix)
  | none =>
    match mq_p2 with
    | some a2 => some (a2 ix)
    | none => some mq

/-- The mapping quality of section 4.3 of the specification: the root mean
square of `mq1`, `mq2` weighted by the read totals `n1`, `n2`, rounded to the
nearest integer. -/
noncomputable def mq_spec (mq1 mq2 n1 n2 : ℝ) : Int :=
  ⌊1 / 2 + Real.sqrt ((mq1 ^ 2 * n1 + mq2 ^ 2 * n2) / (n1 + n2))⌋

/-- Source lines 114-116 of `output_cpg` (combined mode) with the step
`m <<= 1` of line 113: one pass of the loop over the 8 counts for the index
`i`; the state is `(m, ct[2], ct[3])`, `m` a `uint8_t`, the counts `int32_t`. -/
def output_cpg_ct_step2 (g1 g2 : gt_meth) (msk1 msk2 : Nat) (st : Nat × Int × Int)
    (i : Nat) : Nat × Int × Int :=
  let m := st.1
  let ct3 := wrap32 (st.2.2 + wrap32 (g1.counts i + g2.counts i))
  let ct2 := st.2.1
  let ct2 := if msk1 &&& m ≠ 0 then wrap32 (ct2 + g1.counts i) else ct2
  let ct2 := if msk2 &&& m ≠ 0 then wrap32 (ct2 + g2.counts i) else ct2
  ((m <<< 1) % 256, ct2, ct3)

/-- Source lines 109-117 of `output_cpg` (combined mode): the loop over the 8
counts, entered with `m = 1` and `ct[2] = ct[3] = 0`. -/
def output_cpg_ct_loop2 (g1 g2 : gt_meth) (msk1 msk2 : Nat) : Nat × Int × Int :=
  (List.range 8).foldl (output_cpg_ct_step2 g1 g2 msk1 msk2) (1, 0, 0)

/-- Source lines 106-117 of `output_cpg` (combined mode): the counts
`(ct[0], ct[1], ct[2], ct[3])`. -/
def output_cpg_ct_combined (g1 g2 : gt_meth) : Int × Int × Int × Int :=
  let ct0 := wrap32 (g1.counts 5 + g2.counts 6)
  let ct1 := wrap32 (g1.counts 7 + g2.counts 4)
  let msk1 := gt_msk g1.max_gt
  let msk2 := gt_msk g2.max_gt
  let st := output_cpg_ct_loop2 g1 g2 msk1 msk2
  (ct0, ct1, st.2.1, st.2.2)

/-- Source lines 153-154 and 239-240 of `output_cpg` with the step `m <<= 1`:
one pass of the loop over the 8 counts of one call for the index `i`; the
state is `(m, ct[2], ct[3])`, `m` a `uint8_t`, the counts `int32_t`. -/
def output_cpg_ct_step (g : gt_meth) (msk : Nat) (st : Nat × Int × Int) (i : Nat) :
    Nat × Int × Int :=
  let m := st.1
  let ct3 := wrap32 (st.2.2 + g.counts i)
  let ct2 := if msk &&& m ≠ 0 then wrap32 (st.2.1 + g.counts i) else st.2.1
  ((m <<< 1) % 256, ct2, ct3)

/-- Source lines 149-155 and 235-241 of `output_cpg`: the loop over the 8 counts
of one call, entered with `m = 1` and `ct[2] = ct[3] = 0`. -/
def output_cpg_ct_loop (g : gt_meth) (msk : Nat) : Nat × Int × Int :=
  (List.range 8).foldl (output_cpg_ct_step g msk) (1, 0, 0)

/-- Source lines 141-155 and 227-241 of `output_cpg` (strand-specific and
non-CpG output): the counts `(ct[0], ct[1], ct[2], ct[3])` at position `pos`. -/
def output_cpg_ct (g : gt_meth) (pos : Nat) : Int × Int × Int × Int :=
  let ct0 := if pos ≠ 0 then g.counts 6 else g.counts 5
  let ct1 := if pos ≠ 0 then g.counts 4 else g.counts 7
  let msk := gt_msk g.max_gt
  let st := output_cpg_ct_loop g msk
  (ct0, ct1, st.2.1, st.2.2)

/-- What one `fprintf` or `fputs` call writes: the literal text of the format
string and, for each conversion, its argument. -/
inductive Tok where
  /-- Literal text of a format string. -/
  | lit (s : String)
  /-- A `%c` conversion. -/
  | chr (c : Char)
  /-- A `%d` conversion. -/
  | int (n : Int)
  /-- A `%.3f` or `%g` conversion. -/
  | dbl (x : ℝ)
  /-- A `%.3s` conversion: the characters printed. -/
  | str (l : List Char)

/-- The tab characters that a piece of output holds; a number is printed
without one. -/
def Tok.tabs : Tok → Nat
  | Tok.lit s => s.toList.count '\t'
  | Tok.chr c => if c = '\t' then 1 else 0
  | Tok.int _ => 0
  | Tok.dbl _ => 0
  | Tok.str l => l.count '\t'

/-- The number of tab-separated columns of a sample's text: every column
starts with a tab. -/
def columns (l : List Tok) : Nat := (l.map Tok.tabs).sum

/-- The characters that `%.3s` prints from the array `s`: at most 3, up to the
first 0. -/
def str3 (s : Nat → Char) : List Char :=
  ([s 0, s 1, s 2]).takeWhile fun c => c ≠ Char.ofNat 0

/-- Source lines 82-121 of `output_cpg` (combined mode): the text written for
sample `ix`; `m` is `cpg[ix].m`.  The result is `none` when a division by 0 is
reached. -/
noncomputable def output_cpg_combined_sample (g1 g2 : gt_meth)
    (mq_p1 mq_p2 : Option (Nat → Int)) (ix : Nat) (m : ℝ) : Option (List Tok) :=
  if !(g1.skip || g2.skip) then
    let gq := calc_phred (1 - Real.exp (g1.gt_prob g1.max_gt + g2.gt_prob g2.max_gt))
    let out := [Tok.lit "\t", Tok.chr (gt_iupac g1.max_gt), Tok.chr (gt_iupac g2.max_gt),
      Tok.lit "\tGQ=", Tok.int gq]
    let out :=
      if g1.max_gt ≠ 4 ∨ g2.max_gt ≠ 7 then
        out ++ [Tok.lit ";DQ=", Tok.int (calc_phred (Real.exp (g1.gt_prob 4 + g2.gt_prob 7)))]
      else out
    (output_cpg_mq mq_p1 mq_p2 g1 g2 ix).map fun mq =>
      let out := if mq ≥ 0 then out ++ [Tok.lit ";MQ=", Tok.int mq] else out
      let ct := output_cpg_ct_combined g1 g2
      out ++ [Tok.lit "\t", Tok.dbl m, Tok.lit "\t", Tok.int ct.1, Tok.lit "\t",
        Tok.int ct.2.1, Tok.lit "\t", Tok.int ct.2.2.1, Tok.lit "\t", Tok.int ct.2.2.2]
  else some [Tok.lit "\t.\t.\t.\t.\t.\t.\t."]

/-- Source lines 130-160 of `output_cpg` (strand-specific mode): the text
written for sample `ix` at position `pos`; `g` is the call of that strand,
`mq_p` its `MQ` array and `meth` the value of `get_meth(g, pos)`. -/
noncomputable def output_cpg_strand_sample (pos : Nat) (g : gt_meth)
    (mq_p : Option (Nat → Int)) (ix : Nat) (meth : ℝ) : List Tok :=
  if !g.skip then
    let gq := calc_phred (1 - Real.exp (g.gt_prob g.max_gt))
    let out := [Tok.lit "\t", Tok.chr (gt_iupac g.max_gt), Tok.lit "\tGQ=", Tok.int gq]
    let out :=
      if g.max_gt ≠ (if pos ≠ 0 then 7 else 4) then
        out ++ [Tok.lit ";DQ=",
          Tok.int (calc_phred (Real.exp (g.gt_prob (if pos ≠ 0 then 7 else 4))))]
      else out
    let mq : Int := -1
    let mq := match mq_p with
      | some a => a ix
      | none => mq
    let out := if mq ≥ 0 then out ++ [Tok.lit ";MQ=", Tok.int mq] else out
    let ct := output_cpg_ct g pos
    out ++ [Tok.lit "\t", Tok.dbl meth, Tok.lit "\t", Tok.int ct.1, Tok.lit "\t",
      Tok.int ct.2.1, Tok.lit "\t", Tok.int ct.2.2.1, Tok.lit "\t", Tok.int ct.2.2.2]
  else [Tok.lit "\t.\t.\t.\t.\t.\t.\t."]

/-- Source lines 207-246 of `output_cpg` (non-CpG output): the text written for
sample `ix` at position `pos`; `cx_p` is the sample's context string, `cx_sz`
its size, `mq_p` the `MQ` array and `meth` the value of `get_meth(g, pos)`. -/
noncomputable def output_cpg_noncpg_sample (pos : Nat) (g : gt_meth)
    (mq_p : Option (Nat → Int)) (ix : Nat) (cx_sz : Int) (cx_p : Nat → Char)
    (meth : ℝ) : List Tok :=
  if !g.skip then
    let gq := calc_phred (1 - Real.exp (g.gt_prob g.max_gt))
    let out := [Tok.lit "\t", Tok.chr (gt_iupac g.max_gt), Tok.lit "\tGQ=", Tok.int gq]
    let out :=
      if g.max_gt ≠ (if pos ≠ 0 then 7 else 4) then
        out ++ [Tok.lit ";DQ=",
          Tok.int (calc_phred (Real.exp (g.gt_prob (if pos ≠ 0 then 7 else 4))))]
      else out
    let mq : Int := -1
    let mq := match mq_p with
      | some a => a ix
      | none => mq
    let out := if mq ≥ 0 then out ++ [Tok.lit ";MQ=", Tok.int mq] else out
    let out :=
      if pos = 0 then
        if cx_sz ≥ 5 then out ++ [Tok.lit ";CX=", Tok.str (str3 fun j => cx_p (j + 2))]
        else out
      else if cx_sz ≥ 3 then out ++ [Tok.lit ";CX=", Tok.str (str3 (output_cpg_tmp cx_p))]
      else out
    let ct := output_cpg_ct g pos
    out ++ [Tok.lit "\t", Tok.dbl meth, Tok.lit "\t", Tok.int ct.1, Tok.lit "\t",
      Tok.int ct.2.1, Tok.lit "\t", Tok.int ct.2.2.1, Tok.lit "\t", Tok.int ct.2.2.2]
  else [Tok.lit "\t.\t.\t.\t.\t.\t.\t.\t."]

/-- A call for the worked examples: the read counts of the list, the
log-probability 0 for the genotype `max_gt` and -100 for the others, and the
given skip flag. -/
def call (c : List Int) (max_gt : Nat) (skip : Bool) : gt_meth :=
  { counts := fun i => c.getD i 0
    gt_prob := fun i => if i = max_gt then 0 else -100
    max_gt := max_gt
    skip := skip }

/-! ## The distribution engine: `get_prob_dist` -/

theorem get_prob_dist_inner_apply {α : Type} [CommRing α] (q0 : Buf α) (z : α) (ix : Nat)
    (q1 : Buf α) (k : Nat) :
    get_prob_dist_inner q0 z ix q1 k =
      if 1 ≤ k ∧ k ≤ ix then q0 (k - 1) * z + q0 k * (1 - z) else q1 k := by
  induction ix with
  | zero =>
    have : ¬ (1 ≤ k ∧ k ≤ 0) := by omega
    rw [if_neg this]
    rfl
  | succ n ih =>
    unfold get_prob_dist_inner at ih ⊢
    rw [List.range'_1_concat, List.foldl_append, List.foldl_cons, List.foldl_nil]
    by_cases hk : k = 1 + n
    · subst hk
      have : 1 ≤ 1 + n ∧ 1 + n ≤ n + 1 := by omega
      simp [this]
    · rw [Function.update_noteq hk, ih]
      have : (1 ≤ k ∧ k ≤ n + 1) ↔ (1 ≤ k ∧ k ≤ n) := by omega
      simp only [this]

theorem get_prob_dist_step_fst {α : Type} [CommRing α] (p : Buf α) (st : Buf α × Buf α)
    (ix k : Nat) :
    (get_prob_dist_step p st ix).1 k =
      if k = 0 then st.1 0 * (1 - p ix)
      else if k ≤ ix then st.1 (k - 1) * p ix + st.1 k * (1 - p ix)
      else if k = ix + 1 then st.1 ix * p ix
      else st.2 k := by
  unfold get_prob_dist_step
  simp only
  by_cases h1 : k = ix + 1
  · subst h1
    simp
  · rw [Function.update_noteq h1, get_prob_dist_inner_apply]
    by_cases h0 : k = 0
    · subst h0
      simp
    · have : 1 ≤ k := by omega
      simp [h0, h1, this, Function.update_noteq h0]

theorem get_prob_dist_step_snd {α : Type} [CommRing α] (p : Buf α) (st : Buf α × Buf α)
    (ix : Nat) : (get_prob_dist_step p st ix).2 = st.1 := rfl

theorem get_prob_dist_loop_zero {α : Type} [CommRing α] (Q : Fin 3 → Buf α) :
    get_prob_dist_loop 0 Q = (Function.update (Q 0) 0 1, Q 1) := rfl

theorem get_prob_dist_loop_succ {α : Type} [CommRing α] (n : Nat) (Q : Fin 3 → Buf α) :
    get_prob_dist_loop (n + 1) Q = get_prob_dist_step (Q 2) (get_prob_dist_loop n Q) n := by
  unfold get_prob_dist_loop
  rw [List.range_succ, List.foldl_append, List.foldl_cons, List.foldl_nil]

theorem dist_eq_zero_of_lt {α : Type} [CommRing α] (p : Nat → α) (n : Nat) :
    ∀ k, n < k → dist p n k = 0 := by
  induction n with
  | zero =>
    intro k hk
    have : k ≠ 0 := by omega
    simp [dist, this]
  | succ n ih =>
    intro k hk
    have h0 : k ≠ 0 := by omega
    simp [dist, h0, ih k (by omega), ih (k - 1) (by omega)]

/-- The loop invariant of `get_prob_dist`: after `n` samples the cells `0 .. n`
of the buffer `q0` hold the distribution of the first `n` samples. -/
theorem get_prob_dist_loop_fst {α : Type} [CommRing α] (Q : Fin 3 → Buf α) (n : Nat) :
    ∀ k, k ≤ n → (get_prob_dist_loop n Q).1 k = dist (Q 2) n k := by
  induction n with
  | zero =>
    intro k hk
    have : k = 0 := by omega
    subst this
    simp [get_prob_dist_loop_zero, dist]
  | succ n ih =>
    intro k hk
    rw [get_prob_dist_loop_succ, get_prob_dist_step_fst]
    by_cases h0 : k = 0
    · subst h0
      simp [dist, ih 0 (Nat.zero_le n)]
    · by_cases h1 : k ≤ n
      · simp [h0, h1, dist, ih k h1, ih (k - 1) (by omega)]
      · have h2 : k = n + 1 := by omega
        subst h2
        simp [dist, ih n (le_refl n), dist_eq_zero_of_lt (Q 2) n (n + 1) (by omega)]

theorem get_prob_dist_apply {α : Type} [CommRing α] (N : Nat) (Q : Fin 3 → Buf α)
    (k : Nat) (hk : k ≤ N) : get_prob_dist N Q k = dist (Q 2) N k :=
  get_prob_dist_loop_fst Q N k hk

theorem poisson_binomial_zero {α : Type} [CommRing α] (p : Nat → α) (k : Nat) :
    poisson_binomial p 0 k = if k = 0 then 1 else 0 := by
  unfold poisson_binomial
  cases k with
  | zero => simp
  | succ k => simp [Finset.powersetCard_eq_empty.2]

theorem poisson_binomial_succ_zero {α : Type} [CommRing α] (p : Nat → α) (n : Nat) :
    poisson_binomial p (n + 1) 0 = poisson_binomial p n 0 * (1 - p n) := by
  unfold poisson_binomial
  simp [Finset.prod_range_succ]

theorem poisson_binomial_succ_succ {α : Type} [CommRing α] (p : Nat → α) (n k : Nat) :
    poisson_binomial p (n + 1) (k + 1) =
      poisson_binomial p n k * p n + poisson_binomial p n (k + 1) * (1 - p n) := by
  unfold poisson_binomial
  have hn : n ∉ Finset.range n := Finset.not_mem_range_self
  rw [Finset.range_succ, Finset.powersetCard_succ_insert hn, Finset.sum_union]
  · rw [Finset.sum_image, add_comm, Finset.sum_mul, Finset.sum_mul]
    · congr 1
      · refine Finset.sum_congr rfl fun S hS => ?_
        have hS1 : S ⊆ Finset.range n := (Finset.mem_powersetCard.1 hS).1
        have hnS : n ∉ S := fun h => hn (hS1 h)
        rw [Finset.prod_insert hnS, Finset.insert_sdiff_insert,
          Finset.sdiff_insert_of_not_mem hn]
        ring
      · refine Finset.sum_congr rfl fun S hS => ?_
        have hS1 : S ⊆ Finset.range n := (Finset.mem_powersetCard.1 hS).1
        have hnS : n ∉ S := fun h => hn (hS1 h)
        have hnd : n ∉ Finset.range n \ S := fun h => hn (Finset.mem_sdiff.1 h).1
        rw [Finset.insert_sdiff_of_not_mem _ hnS, Finset.prod_insert hnd]
        ring
    · intro S hS T hT hST
      have hS1 : n ∉ S := fun h => hn ((Finset.mem_powersetCard.1 hS).1 h)
      have hT1 : n ∉ T := fun h => hn ((Finset.mem_powersetCard.1 hT).1 h)
      rw [← Finset.erase_insert hS1, ← Finset.erase_insert hT1, hST]
  · rw [Finset.disjoint_left]
    intro S hS hS2
    obtain ⟨T, _, rfl⟩ := Finset.mem_image.1 hS2
    exact hn ((Finset.mem_powersetCard.1 hS).1 (Finset.mem_insert_self n T))

/-- The recurrence of the dynamic program computes the Poisson-binomial sums. -/
theorem dist_eq_poisson_binomial {α : Type} [CommRing α] (p : Nat → α) (n : Nat) :
    ∀ k, dist p n k = poisson_binomial p n k := by
  induction n with
  | zero =>
    intro k
    rw [poisson_binomial_zero]
    rfl
  | succ n ih =>
    intro k
    cases k with
    | zero => simp [dist, poisson_binomial_succ_zero, ih]
    | succ k => simp [dist, poisson_binomial_succ_succ, ih]

/-- Claim C1. For every sample count `N` and every probability array `p = Q[2]`,
each entry `k` in `0 .. N` of the array returned by `get_prob_dist` is the
Poisson-binomial probability: the sum over the `k`-element subsets `S` of the
samples of the product of `p i` over `S` times the product of `1 - p i` over
the other samples. -/
theorem C1_get_prob_dist_poisson_binomial {α : Type} [CommRing α] (N : Nat)
    (Q : Fin 3 → Buf α) (k : Nat) :
    k ≤ N →
    get_prob_dist N Q k =
      ∑ S ∈ Finset.powersetCard k (Finset.range N),
        (∏ i ∈ S, Q 2 i) * ∏ i ∈ Finset.range N \ S, (1 - Q 2 i) := by
  intro hk
  rw [get_prob_dist_apply N Q k hk, dist_eq_poisson_binomial]
  rfl

theorem C1_witness :
    1 ≤ 2 ∧
    get_prob_dist 2 (scratch [(1 / 2 : ℚ), 1 / 3]) 1 =
      ∑ S ∈ Finset.powersetCard 1 (Finset.range 2),
        (∏ i ∈ S, scratch [(1 / 2 : ℚ), 1 / 3] 2 i) *
          ∏ i ∈ Finset.range 2 \ S, (1 - scratch [(1 / 2 : ℚ), 1 / 3] 2 i) :=
  ⟨by decide, C1_get_prob_dist_poisson_binomial 2 (scratch [(1 / 2 : ℚ), 1 / 3]) 1 (by decide)⟩

theorem dist_sum {α : Type} [CommRing α] (p : Nat → α) (n : Nat) :
    ∑ k ∈ Finset.range (n + 1), dist p n k = 1 := by
  induction n with
  | zero => simp [dist]
  | succ n ih =>
    simp only [dist]
    rw [Finset.sum_add_distrib, Finset.sum_range_succ', ← Finset.sum_mul,
      Finset.sum_range_succ _ (n + 1), ih, dist_eq_zero_of_lt p n (n + 1) (by omega)]
    simp only [Nat.add_one_ne_zero, if_false, Nat.add_sub_cancel, if_true]
    rw [← Finset.sum_mul, ih]
    ring

/-- Claim C2. Mass conservation: for every sample count `N` and every
probability array, the entries `0 .. N` of the array returned by
`get_prob_dist` sum to 1 (exact arithmetic). -/
theorem C2_get_prob_dist_sum_one {α : Type} [CommRing α] (N : Nat) (Q : Fin 3 → Buf α) :
    ∑ k ∈ Finset.range (N + 1), get_prob_dist N Q k = 1 := by
  rw [← dist_sum (Q 2) N]
  refine Finset.sum_congr rfl fun k hk => ?_
  exact get_prob_dist_apply N Q k (by simpa [Nat.lt_succ_iff] using hk)

theorem dist_nonneg {α : Type} [LinearOrderedCommRing α] (p : Nat → α) (n : Nat)
    (hp : ∀ i, i < n → 0 ≤ p i ∧ p i ≤ 1) : ∀ k, 0 ≤ dist p n k := by
  induction n with
  | zero =>
    intro k
    by_cases h : k = 0 <;> simp [dist, h]
  | succ n ih =>
    intro k
    have ih1 := ih fun i hi => hp i (by omega)
    obtain ⟨h0, h1⟩ := hp n (by omega)
    have h2 : 0 ≤ dist p n k * (1 - p n) := mul_nonneg (ih1 k) (by linarith)
    by_cases h : k = 0
    · simpa [dist, h] using mul_nonneg (ih1 0) (sub_nonneg.2 h1)
    · have h3 : 0 ≤ dist p n (k - 1) * p n := mul_nonneg (ih1 (k - 1)) h0
      simp only [dist, h, if_false]
      linarith

/-- Cells beyond the ones written keep the content the caller left in the
buffers: the two buffers alternate with the parity of the sample count. -/
theorem get_prob_dist_loop_frame {α : Type} [CommRing α] (Q : Fin 3 → Buf α) (n : Nat) :
    ∀ k, n < k →
      (get_prob_dist_loop n Q).1 k = Q (if n % 2 = 0 then 0 else 1) k ∧
      (get_prob_dist_loop n Q).2 k = Q (if n % 2 = 0 then 1 else 0) k := by
  induction n with
  | zero =>
    intro k hk
    have : k ≠ 0 := by omega
    simp [get_prob_dist_loop_zero, Function.update_noteq this]
  | succ n ih =>
    intro k hk
    obtain ⟨ih1, ih2⟩ := ih k (by omega)
    rw [get_prob_dist_loop_succ, get_prob_dist_step_snd, get_prob_dist_step_fst]
    have h0 : k ≠ 0 := by omega
    have h1 : ¬ k ≤ n := by omega
    have h2 : k ≠ n + 1 := by omega
    rw [if_neg h0, if_neg h1, if_neg h2, ih1, ih2]
    rcases Nat.mod_two_eq_zero_or_one n with h | h
    · have : (n + 1) % 2 = 1 := by omega
      simp [h, this]
    · have : (n + 1) % 2 = 0 := by omega
      simp [h, this]

/-- Claim C3. Support invariant: when every probability `p[i]`, `i < N`, lies in
`[0,1]`, the entries `0 .. N` of the result of `get_prob_dist` are all `≥ 0`,
and these `N+1` cells are exactly the ones the call defines: every cell of the
result beyond `N` still holds what the caller left in that buffer (`Q[0]` for
even `N`, `Q[1]` for odd `N`); the pass for sample `ix` writes the cells
`0 .. ix+1` of `q1` (their new content does not depend on the old one), leaves
the cells beyond `ix+1` alone, and does not write to `q0`. -/
theorem C3_get_prob_dist_support {α : Type} [LinearOrderedCommRing α] (N : Nat)
    (Q : Fin 3 → Buf α) (hp : ∀ i, i < N → 0 ≤ Q 2 i ∧ Q 2 i ≤ 1) :
    (∀ k, k ≤ N → 0 ≤ get_prob_dist N Q k) ∧
    (∀ k, N < k → get_prob_dist N Q k = Q (if N % 2 = 0 then 0 else 1) k) ∧
    (∀ (q0 q1 q1' : Buf α) (ix k : Nat),
      (k ≤ ix + 1 → (get_prob_dist_step (Q 2) (q0, q1) ix).1 k =
        (get_prob_dist_step (Q 2) (q0, q1') ix).1 k) ∧
      (ix + 1 < k → (get_prob_dist_step (Q 2) (q0, q1) ix).1 k = q1 k) ∧
      (get_prob_dist_step (Q 2) (q0, q1) ix).2 = q0) := by
  refine ⟨fun k hk => ?_, fun k hk => (get_prob_dist_loop_frame Q N k hk).1, ?_⟩
  · rw [get_prob_dist_apply N Q k hk]
    exact dist_nonneg (Q 2) N hp k
  · intro q0 q1 q1' ix k
    refine ⟨fun hk => ?_, fun hk => ?_, rfl⟩
    · rw [get_prob_dist_step_fst, get_prob_dist_step_fst]
      by_cases h0 : k = 0
      · simp [h0]
      · by_cases h1 : k ≤ ix
        · simp [h0, h1]
        · have h2 : k = ix + 1 := by omega
          simp [h2]
    · rw [get_prob_dist_step_fst]
      have h0 : k ≠ 0 := by omega
      have h1 : ¬ k ≤ ix := by omega
      have h2 : k ≠ ix + 1 := by omega
      simp [h0, h1, h2]

theorem scratch_two {α : Type} [Field α] (l : List α) (i : Nat) :
    scratch l 2 i = l.getD i 0 := rfl

theorem C3_witness :
    (∀ i, i < 3 → 0 ≤ scratch [(1 / 2 : ℚ), 1 / 3, 1 / 4] 2 i ∧ scratch [(1 / 2 : ℚ), 1 / 3, 1 / 4] 2 i ≤ 1) ∧
    ((∀ k, k ≤ 3 → 0 ≤ get_prob_dist 3 (scratch [(1 / 2 : ℚ), 1 / 3, 1 / 4]) k) ∧
    (∀ k, 3 < k → get_prob_dist 3 (scratch [(1 / 2 : ℚ), 1 / 3, 1 / 4]) k =
      scratch [(1 / 2 : ℚ), 1 / 3, 1 / 4] (if 3 % 2 = 0 then 0 else 1) k) ∧
    (∀ (q0 q1 q1' : Buf ℚ) (ix k : Nat),
      (k ≤ ix + 1 → (get_prob_dist_step (scratch [(1 / 2 : ℚ), 1 / 3, 1 / 4] 2) (q0, q1) ix).1 k =
        (get_prob_dist_step (scratch [(1 / 2 : ℚ), 1 / 3, 1 / 4] 2) (q0, q1') ix).1 k) ∧
      (ix + 1 < k → (get_prob_dist_step (scratch [(1 / 2 : ℚ), 1 / 3, 1 / 4] 2) (q0, q1) ix).1 k = q1 k) ∧
      (get_prob_dist_step (scratch [(1 / 2 : ℚ), 1 / 3, 1 / 4] 2) (q0, q1) ix).2 = q0)) := by
  have h : ∀ i, i < 3 →
      0 ≤ scratch [(1 / 2 : ℚ), 1 / 3, 1 / 4] 2 i ∧ scratch [(1 / 2 : ℚ), 1 / 3, 1 / 4] 2 i ≤ 1 := by
    intro i hi
    rw [scratch_two]
    interval_cases i <;> norm_num
  exact ⟨h, C3_get_prob_dist_support 3 (scratch [(1 / 2 : ℚ), 1 / 3, 1 / 4]) h⟩

theorem dist_all_zero {α : Type} [CommRing α] (p : Nat → α) (n : Nat)
    (hp : ∀ i, i < n → p i = 0) : ∀ k, dist p n k = if k = 0 then 1 else 0 := by
  induction n with
  | zero =>
    intro k
    rfl
  | succ n ih =>
    intro k
    have ih1 := ih fun i hi => hp i (by omega)
    simp [dist, ih1, hp n (by omega)]

theorem dist_all_one {α : Type} [CommRing α] (p : Nat → α) (n : Nat)
    (hp : ∀ i, i < n → p i = 1) : ∀ k, dist p n k = if k = n then 1 else 0 := by
  induction n with
  | zero =>
    intro k
    rfl
  | succ n ih =>
    intro k
    have ih1 := ih fun i hi => hp i (by omega)
    simp only [dist, ih1, hp n (by omega), mul_one, sub_self, mul_zero, add_zero]
    by_cases h0 : k = 0
    · have : (0 : Nat) ≠ n + 1 := by omega
      simp [h0, this]
    · have : (k - 1 = n) ↔ (k = n + 1) := by omega
      simp [h0, this]

/-- Claim C4. Degenerate cases of `get_prob_dist`: when all `N` probabilities are
0 the result has `q[0] = 1` and `q[k] = 0` for `1 ≤ k ≤ N`; when all `N`
probabilities are 1 it has `q[N] = 1` and `q[k] = 0` for `k < N`. -/
theorem C4_get_prob_dist_degenerate {α : Type} [CommRing α] (N : Nat) (Q : Fin 3 → Buf α) :
    ((∀ i, i < N → Q 2 i = 0) →
      get_prob_dist N Q 0 = 1 ∧ ∀ k, 1 ≤ k → k ≤ N → get_prob_dist N Q k = 0) ∧
    ((∀ i, i < N → Q 2 i = 1) →
      get_prob_dist N Q N = 1 ∧ ∀ k, k < N → get_prob_dist N Q k = 0) := by
  constructor
  · intro hp
    constructor
    · rw [get_prob_dist_apply N Q 0 (Nat.zero_le N), dist_all_zero (Q 2) N hp]
      simp
    · intro k h1 hk
      have : k ≠ 0 := by omega
      rw [get_prob_dist_apply N Q k hk, dist_all_zero (Q 2) N hp]
      simp [this]
  · intro hp
    constructor
    · rw [get_prob_dist_apply N Q N (le_refl N), dist_all_one (Q 2) N hp]
      simp
    · intro k hk
      have : k ≠ N := by omega
      rw [get_prob_dist_apply N Q k (by omega), dist_all_one (Q 2) N hp]
      simp [this]

theorem C4_witness :
    ((∀ i, i < 3 → scratch [(0 : ℚ), 0, 0] 2 i = 0) ∧
      get_prob_dist 3 (scratch [(0 : ℚ), 0, 0]) 0 = 1 ∧
      ∀ k, 1 ≤ k → k ≤ 3 → get_prob_dist 3 (scratch [(0 : ℚ), 0, 0]) k = 0) ∧
    ((∀ i, i < 3 → scratch [(1 : ℚ), 1, 1] 2 i = 1) ∧
      get_prob_dist 3 (scratch [(1 : ℚ), 1, 1]) 3 = 1 ∧
      ∀ k, k < 3 → get_prob_dist 3 (scratch [(1 : ℚ), 1, 1]) k = 0) := by
  have h0 : ∀ i, i < 3 → scratch [(0 : ℚ), 0, 0] 2 i = 0 := by
    intro i hi
    rw [scratch_two]
    interval_cases i <;> rfl
  have h1 : ∀ i, i < 3 → scratch [(1 : ℚ), 1, 1] 2 i = 1 := by
    intro i hi
    rw [scratch_two]
    interval_cases i <;> rfl
  exact ⟨⟨h0, (C4_get_prob_dist_degenerate 3 (scratch [(0 : ℚ), 0, 0])).1 h0⟩,
    ⟨h1, (C4_get_prob_dist_degenerate 3 (scratch [(1 : ℚ), 1, 1])).2 h1⟩⟩

/-! ## The quality score: `calc_phred` -/

theorem int_of_double_eq_trunc (x : ℝ) : int_of_double x = trunc x := by
  unfold int_of_double trunc
  by_cases h : 0 ≤ x
  · rw [if_pos h, if_pos h, abs_of_nonneg h, Int.natCast_floor_eq_floor h]
  · have h1 : x < 0 := lt_of_not_ge h
    have h2 : (0 : ℝ) ≤ -x := by linarith
    rw [if_neg h, if_neg h, abs_of_neg h1, Int.natCast_floor_eq_floor h2, Int.floor_neg,
      neg_neg]

theorem int_of_double_mono {α : Type} [LinearOrderedField α] [FloorRing α] {x y : α}
    (h : x ≤ y) : int_of_double x ≤ int_of_double y := by
  unfold int_of_double
  by_cases hx : 0 ≤ x
  · rw [if_pos hx, if_pos (le_trans hx h)]
    exact Int.floor_le_floor h
  · have hx1 : x < 0 := lt_of_not_ge hx
    rw [if_neg hx]
    by_cases hy : 0 ≤ y
    · rw [if_pos hy]
      have h1 : ⌈x⌉ ≤ 0 := Int.ceil_le.2 (by simpa using hx1.le)
      have h2 : 0 ≤ ⌊y⌋ := Int.floor_nonneg.2 hy
      exact le_trans h1 h2
    · rw [if_neg hy]
      exact Int.ceil_le_ceil h

theorem int_of_double_nonneg_iff {α : Type} [LinearOrderedField α] [FloorRing α] (x : α) :
    0 ≤ int_of_double x ↔ -1 < x := by
  unfold int_of_double
  by_cases hx : 0 ≤ x
  · rw [if_pos hx]
    constructor
    · intro _
      linarith
    · intro _
      exact Int.floor_nonneg.2 hx
  · rw [if_neg hx]
    have h : (0 : Int) ≤ ⌈x⌉ ↔ (-1 : Int) < ⌈x⌉ := by omega
    rw [h, Int.lt_ceil]
    simp

theorem LOG10_pos : 0 < LOG10 := Real.log_pos (by norm_num)

theorem calc_phred_of_nonpos {z : ℝ} (h : z ≤ 0) : calc_phred z = 255 := by
  unfold calc_phred
  rw [if_pos h]

theorem calc_phred_of_pos {z : ℝ} (h : 0 < z) :
    calc_phred z = min 255 (int_of_double (-10 * Real.log z / LOG10)) := by
  unfold calc_phred
  rw [if_neg (not_le.2 h)]
  simp only
  by_cases h1 : int_of_double (-10 * Real.log z / LOG10) > 255
  · rw [if_pos h1, min_eq_left h1.le]
  · rw [if_neg h1, min_eq_right (not_lt.1 h1)]

theorem calc_phred_le (z : ℝ) : calc_phred z ≤ 255 := by
  by_cases h : z ≤ 0
  · rw [calc_phred_of_nonpos h]
  · rw [calc_phred_of_pos (lt_of_not_ge h)]
    exact min_le_left _ _

/-- The score never increases with the probability, on the whole real line. -/
theorem calc_phred_antitone {z1 z2 : ℝ} (h : z1 ≤ z2) : calc_phred z2 ≤ calc_phred z1 := by
  by_cases h1 : z1 ≤ 0
  · rw [calc_phred_of_nonpos h1]
    exact calc_phred_le z2
  · have hz1 : 0 < z1 := lt_of_not_ge h1
    have hz2 : 0 < z2 := lt_of_lt_of_le hz1 h
    rw [calc_phred_of_pos hz1, calc_phred_of_pos hz2]
    refine min_le_min (le_refl _) (int_of_double_mono ?_)
    have hl : Real.log z1 ≤ Real.log z2 := Real.log_le_log hz1 h
    have : -10 * Real.log z2 ≤ -10 * Real.log z1 := by linarith
    exact div_le_div_of_nonneg_right this LOG10_pos.le

theorem calc_phred_zero : calc_phred 0 = 255 := calc_phred_of_nonpos (le_refl 0)

theorem calc_phred_one : calc_phred 1 = 0 := by
  rw [calc_phred_of_pos one_pos]
  simp [int_of_double]

/-- Claim C5. For every real `z`, `calc_phred z` is 255 when `z ≤ 0` and otherwise
the minimum of 255 and the truncation (fractional part dropped, toward zero) of
`-10 * ln z / ln 10`. -/
theorem C5_calc_phred_eq_spec (z : ℝ) : calc_phred z = calc_phred_spec z := by
  unfold calc_phred_spec
  by_cases h : z ≤ 0
  · rw [if_pos h, calc_phred_of_nonpos h]
  · rw [if_neg h, calc_phred_of_pos (lt_of_not_ge h), int_of_double_eq_trunc]
    rfl

/-- Claim C6. Quality saturation and monotonicity: `calc_phred 0 = 255`,
`calc_phred 1 = 0`, and whenever `z1 ≤ z2` (in particular for `z1 ≤ z2` in
`[0,1]`) the score of `z2` is at most the score of `z1`. -/
theorem C6_calc_phred_saturation_monotone (z1 z2 : ℝ) (h : z1 ≤ z2) :
    calc_phred 0 = 255 ∧ calc_phred 1 = 0 ∧ calc_phred z2 ≤ calc_phred z1 :=
  ⟨calc_phred_zero, calc_phred_one, calc_phred_antitone h⟩

theorem C6_witness :
    (1 / 2 : ℝ) ≤ 1 ∧
    (calc_phred 0 = 255 ∧ calc_phred 1 = 0 ∧ calc_phred 1 ≤ calc_phred (1 / 2)) :=
  ⟨by norm_num, C6_calc_phred_saturation_monotone (1 / 2) 1 (by norm_num)⟩

theorem calc_phred_nonneg_iff {z : ℝ} (hz : 0 < z) : 0 ≤ calc_phred z ↔ z ^ 10 < 10 := by
  rw [calc_phred_of_pos hz, le_min_iff, int_of_double_nonneg_iff]
  have h255 : (0 : Int) ≤ 255 := by norm_num
  have hl : Real.log (z ^ 10) = 10 * Real.log z := by
    rw [Real.log_pow]
    norm_num
  rw [← Real.log_lt_log_iff (pow_pos hz 10) (by norm_num : (0 : ℝ) < 10), hl,
    lt_div_iff₀ LOG10_pos]
  unfold LOG10
  constructor
  · rintro ⟨_, h⟩
    linarith
  · intro h
    exact ⟨h255, by linarith⟩

/-- Claim C7, counterexample. The probability-like input `z = 100` is accepted
and gives the score `-20`, which is below 0. -/
theorem C7_counterexample :
    calc_phred 100 = -20 ∧ ¬ (0 ≤ calc_phred 100 ∧ calc_phred 100 ≤ 255) := by
  have h : calc_phred 100 = -20 := by
    rw [calc_phred_of_pos (by norm_num)]
    have h1 : Real.log 100 = 2 * Real.log 10 := by
      rw [show (100 : ℝ) = 10 ^ 2 by norm_num, Real.log_pow]
      norm_num
    have h2 : -10 * Real.log 100 / LOG10 = -20 := by
      have hpos : 0 < Real.log 10 := LOG10_pos
      unfold LOG10
      rw [h1]
      field_simp
      ring
    rw [h2]
    have h3 : int_of_double (-20 : ℝ) = -20 := by
      unfold int_of_double
      rw [if_neg (by norm_num)]
      have : (-20 : ℝ) = ((-20 : Int) : ℝ) := by norm_num
      rw [this, Int.ceil_intCast]
    rw [h3]
    rfl
  rw [h]
  exact ⟨rfl, by norm_num⟩

/-- Claim C7, amended. For every real `z` the score is at most 255; it is at
least 0 for every `z ≤ 1`, and in general it is at least 0 exactly when `z ≤ 0`
or `z ^ 10 < 10` (no lower clamp exists: from `z ^ 10 ≥ 10` on, the truncated
negative value is returned). -/
theorem C7_calc_phred_range (z : ℝ) :
    calc_phred z ≤ 255 ∧ (z ≤ 1 → 0 ≤ calc_phred z) ∧
      (0 ≤ calc_phred z ↔ z ≤ 0 ∨ z ^ 10 < 10) := by
  have key : 0 ≤ calc_phred z ↔ z ≤ 0 ∨ z ^ 10 < 10 := by
    by_cases h : z ≤ 0
    · rw [calc_phred_of_nonpos h]
      simp [h]
    · rw [calc_phred_nonneg_iff (lt_of_not_ge h)]
      simp [h]
  refine ⟨calc_phred_le z, fun h1 => ?_, key⟩
  rw [key]
  by_cases h : z ≤ 0
  · exact Or.inl h
  · right
    have hz : 0 ≤ z := (lt_of_not_ge h).le
    have : z ^ 10 ≤ 1 := pow_le_one₀ hz h1
    linarith

theorem C7_witness :
    (1 / 2 : ℝ) ≤ 1 ∧ 0 ≤ calc_phred (1 / 2) ∧ calc_phred (1 / 2) ≤ 255 :=
  ⟨by norm_num, (C7_calc_phred_range (1 / 2)).2.1 (by norm_num),
    (C7_calc_phred_range (1 / 2)).1⟩

/-! ## The site decision of `output_cpg` -/

/-- The summation loop entered at counter `i` adds the cells `k` with
`i ≤ k ≤ ns` and `k < min_n` to the accumulator. -/
theorem output_cpg_sum_eq {α : Type} [CommRing α] (ns : Nat) (min_n : Int) (p : Buf α)
    (i : Nat) (z : α) :
    output_cpg_sum ns min_n p i z =
      z + ∑ k ∈ (Finset.range (ns + 1)).filter (fun k => i ≤ k ∧ (k : Int) < min_n), p k := by
  induction i, z using output_cpg_sum.induct ns min_n p with
  | case1 i z hc ih =>
    rw [output_cpg_sum, if_pos hc, ih]
    have hset : (Finset.range (ns + 1)).filter (fun k => i ≤ k ∧ (k : Int) < min_n) =
        insert i ((Finset.range (ns + 1)).filter (fun k => i + 1 ≤ k ∧ (k : Int) < min_n)) := by
      ext k
      simp only [Finset.mem_filter, Finset.mem_range, Finset.mem_insert]
      constructor
      · rintro ⟨h1, h2, h3⟩
        by_cases hk : k = i
        · exact Or.inl hk
        · exact Or.inr ⟨h1, by omega, h3⟩
      · rintro (rfl | ⟨h1, h2, h3⟩)
        · exact ⟨by omega, le_refl _, hc.2⟩
        · exact ⟨h1, by omega, h3⟩
    have hni : i ∉ (Finset.range (ns + 1)).filter (fun k => i + 1 ≤ k ∧ (k : Int) < min_n) := by
      simp
    rw [hset, Finset.sum_insert hni]
    ring
  | case2 i z hc =>
    rw [output_cpg_sum, if_neg hc]
    have hset : (Finset.range (ns + 1)).filter (fun k => i ≤ k ∧ (k : Int) < min_n) = ∅ := by
      ext k
      simp only [Finset.mem_filter, Finset.mem_range, Finset.not_mem_empty, iff_false]
      rintro ⟨h1, h2, h3⟩
      exact hc ⟨by omega, by omega⟩
    rw [hset]
    simp

/-- The tail sum of `output_cpg` in closed form: the cell 0 is always part of
it, so the threshold acts as `max min_n 1`. -/
theorem output_cpg_z_eq {α : Type} [CommRing α] (N : Nat) (min_n : Int) (Q : Fin 3 → Buf α) :
    output_cpg_z N min_n Q =
      ∑ k ∈ (Finset.range (N + 1)).filter (fun k : Nat => (k : Int) < max min_n 1),
        get_prob_dist N Q k := by
  unfold output_cpg_z
  simp only
  rw [output_cpg_sum_eq]
  have hset : (Finset.range (N + 1)).filter (fun k : Nat => (k : Int) < max min_n 1) =
      insert 0 ((Finset.range (N + 1)).filter (fun k : Nat => 1 ≤ k ∧ (k : Int) < min_n)) := by
    ext k
    simp only [Finset.mem_filter, Finset.mem_range, Finset.mem_insert, lt_max_iff]
    constructor
    · rintro ⟨h1, h2 | h2⟩
      · by_cases hk : k = 0
        · exact Or.inl hk
        · exact Or.inr ⟨h1, by omega, h2⟩
      · exact Or.inl (by omega)
    · rintro (rfl | ⟨h1, h2, h3⟩)
      · exact ⟨by omega, Or.inr (by norm_num)⟩
      · exact ⟨h1, Or.inl h3⟩
  have hni : 0 ∉ (Finset.range (N + 1)).filter (fun k : Nat => 1 ≤ k ∧ (k : Int) < min_n) := by
    simp
  rw [hset, Finset.sum_insert hni]

/-- Claim C8, counterexample. With one sample of probability 1/2 and the
threshold `min_n = 0` the site decision uses `z = q[0] = 1/2`, not the empty
sum 0. -/
theorem C8_counterexample :
    output_cpg_z 1 0 (scratch [(1 / 2 : ℚ)]) = 1 / 2 ∧
    ¬ (output_cpg_z 1 0 (scratch [(1 / 2 : ℚ)]) =
      ∑ k ∈ (Finset.range (1 + 1)).filter (fun k : Nat => (k : Int) < 0),
        get_prob_dist 1 (scratch [(1 / 2 : ℚ)]) k) := by
  have h : output_cpg_z 1 0 (scratch [(1 / 2 : ℚ)]) = 1 / 2 := by
    unfold output_cpg_z
    simp only
    rw [output_cpg_sum, if_neg (by decide)]
    rw [get_prob_dist, get_prob_dist_loop_succ, get_prob_dist_step_fst, if_pos rfl,
      get_prob_dist_loop_zero, scratch_two]
    norm_num
  refine ⟨h, ?_⟩
  rw [h]
  have : (Finset.range (1 + 1)).filter (fun k : Nat => (k : Int) < 0) = ∅ := by decide
  rw [this]
  norm_num

/-- Claim C8, amended. For every sample count `N`, probability array and
threshold `min_n`, the value `z` that `output_cpg` passes to `calc_phred` is
the sum of `q[k]` over the `k` with `k ≤ N` and `k < max(min_n, 1)`, where
`q = get_prob_dist(N, p)`: for `min_n ≥ 1` the probability that fewer than
`min_n` samples satisfy the predicate, for `min_n ≤ 0` the entry `q[0]`. -/
theorem C8_output_cpg_tail_mass {α : Type} [CommRing α] (N : Nat) (min_n : Int)
    (Q : Fin 3 → Buf α) :
    output_cpg_z N min_n Q =
      ∑ k ∈ (Finset.range (N + 1)).filter (fun k : Nat => (k : Int) < max min_n 1),
        get_prob_dist N Q k :=
  output_cpg_z_eq N min_n Q

theorem int32_of_double_eq {α : Type} [LinearOrderedField α] [FloorRing α] {x : α}
    (h0 : 0 ≤ x) (h : x < 2147483648) : int32_of_double x = ⌊x⌋ := by
  unfold int32_of_double int_of_double
  rw [if_pos h0]
  have h1 : 0 ≤ ⌊x⌋ := Int.floor_nonneg.2 h0
  have h2 : ⌊x⌋ < 2147483648 := Int.floor_lt.2 (by exact_mod_cast h)
  rw [if_pos ⟨by omega, by omega⟩]

theorem output_cpg_min_n_eq_max {α : Type} [LinearOrderedField α] [FloorRing α]
    (min_num : Int) (min_prop : α) (N : Nat) :
    output_cpg_min_n min_num min_prop N =
      max min_num (int32_of_double (min_prop * (N : α) + 1 / 2)) := by
  unfold output_cpg_min_n
  simp only
  by_cases hc : int32_of_double (min_prop * (N : α) + 1 / 2) > min_num
  · rw [if_pos hc, max_eq_right hc.le]
  · rw [if_neg hc, max_eq_left (not_lt.1 hc)]

/-- Claim C9, counterexample. With `min_num = 0`, `min_prop = 10^10` and one
sample the value `min_prop * N + 0.5` does not fit in the 32-bit `int` of line
51: the conversion gives `INT_MIN`, the test `n1 > min_n` fails and `min_n`
stays 0, where `max(min_num, round(min_prop * N))` is `10^10`. -/
theorem C9_counterexample :
    output_cpg_min_n 0 (10000000000 : ℚ) 1 = 0 ∧
    output_cpg_min_n 0 (10000000000 : ℚ) 1 ≠
      max 0 (round ((10000000000 : ℚ) * ((1 : Nat) : ℚ))) := by
  have hf : ⌊(10000000000 : ℚ) * ((1 : Nat) : ℚ) + 1 / 2⌋ = 10000000000 := by
    rw [Int.floor_eq_iff]
    constructor <;> norm_num
  have hi : int_of_double ((10000000000 : ℚ) * ((1 : Nat) : ℚ) + 1 / 2) = 10000000000 := by
    unfold int_of_double
    rw [if_pos (by norm_num), hf]
  have h : output_cpg_min_n 0 (10000000000 : ℚ) 1 = 0 := by
    rw [output_cpg_min_n_eq_max]
    unfold int32_of_double
    rw [hi]
    decide
  refine ⟨h, ?_⟩
  rw [h, round_eq, hf]
  decide

/-- Claim C9, amended. Minimum support threshold: for every sample count `N`,
integer `min_num` and proportion `min_prop ≥ 0` for which `min_prop * N + 0.5`
is below `2^31` (so that the conversion to `int` of line 51 is defined), the
threshold computed at the start of `output_cpg` is
`max(min_num, round(min_prop * N))`, where `round` is the nearest integer with
halves rounded up. -/
theorem C9_output_cpg_min_n {α : Type} [LinearOrderedField α] [FloorRing α]
    (min_num : Int) (min_prop : α) (N : Nat) (h : 0 ≤ min_prop)
    (hr : min_prop * (N : α) + 1 / 2 < 2147483648) :
    output_cpg_min_n min_num min_prop N = max min_num (round (min_prop * (N : α))) := by
  have hx : (0 : α) ≤ min_prop * (N : α) + 1 / 2 := by positivity
  rw [output_cpg_min_n_eq_max, int32_of_double_eq hx hr, round_eq]

theorem C9_witness :
    ((0 : ℚ) ≤ 1 / 2 ∧ (1 / 2 : ℚ) * ((3 : Nat) : ℚ) + 1 / 2 < 2147483648) ∧
    output_cpg_min_n 1 (1 / 2 : ℚ) 3 = max 1 (round ((1 / 2 : ℚ) * ((3 : Nat) : ℚ))) :=
  ⟨⟨by norm_num, by norm_num⟩,
    C9_output_cpg_min_n 1 (1 / 2 : ℚ) 3 (by norm_num) (by norm_num)⟩

/-- A proportion `min_prop ≤ 1` and a sample count that is an `int` keep the
conversion of line 51 in range. -/
theorem min_prop_in_range {α : Type} [LinearOrderedField α] (min_prop : α) (N : Nat)
    (h1 : min_prop ≤ 1) (hN : N < 2147483648) :
    min_prop * (N : α) + 1 / 2 < 2147483648 := by
  have hN1 : (N : α) ≤ 2147483647 := by
    have : N ≤ 2147483647 := by omega
    exact_mod_cast this
  have h2 : min_prop * (N : α) ≤ 1 * (N : α) :=
    mul_le_mul_of_nonneg_right h1 (Nat.cast_nonneg N)
  linarith

theorem output_cpg_min_n_mono {α : Type} [LinearOrderedField α] [FloorRing α]
    (N : Nat) {min_num min_num' : Int} {min_prop min_prop' : α}
    (h1 : min_num ≤ min_num') (h0 : 0 ≤ min_prop) (h2 : min_prop ≤ min_prop')
    (hr : min_prop' * (N : α) + 1 / 2 < 2147483648) :
    output_cpg_min_n min_num min_prop N ≤ output_cpg_min_n min_num' min_prop' N := by
  have hle : min_prop * (N : α) ≤ min_prop' * (N : α) :=
    mul_le_mul_of_nonneg_right h2 (Nat.cast_nonneg N)
  have hx : (0 : α) ≤ min_prop * (N : α) + 1 / 2 := by positivity
  have hx' : (0 : α) ≤ min_prop' * (N : α) + 1 / 2 := by linarith
  rw [output_cpg_min_n_eq_max, output_cpg_min_n_eq_max, int32_of_double_eq hx (by linarith),
    int32_of_double_eq hx' hr]
  exact max_le_max h1 (Int.floor_le_floor (by linarith))

theorem output_cpg_z_mono {α : Type} [LinearOrderedCommRing α] (N : Nat) (Q : Fin 3 → Buf α)
    (hp : ∀ i, i < N → 0 ≤ Q 2 i ∧ Q 2 i ≤ 1) {min_n min_n' : Int} (h : min_n ≤ min_n') :
    output_cpg_z N min_n Q ≤ output_cpg_z N min_n' Q := by
  rw [output_cpg_z_eq, output_cpg_z_eq]
  apply Finset.sum_le_sum_of_subset_of_nonneg
  · intro k hk
    rw [Finset.mem_filter] at hk ⊢
    exact ⟨hk.1, lt_of_lt_of_le hk.2 (max_le_max h (le_refl 1))⟩
  · intro k hk _
    have hk1 : k ≤ N := by
      have := (Finset.mem_filter.1 hk).1
      rw [Finset.mem_range] at this
      omega
    rw [get_prob_dist_apply N Q k hk1]
    exact dist_nonneg (Q 2) N hp k

/-- Claim C10. Threshold monotonicity: for a fixed sample count and a fixed
probability array with entries in `[0,1]`, if `min_n ≤ min_n'` then the tail
sum `z` of `output_cpg` does not decrease and the site score `calc_phred z`
does not increase; and raising `min_num` or `min_prop ≥ 0`, within the range of
the conversion to `int` of line 51, does not raise the score. -/
theorem C10_output_cpg_threshold_monotone (N : Nat) (Q : Fin 3 → Buf ℝ)
    (hp : ∀ i, i < N → 0 ≤ Q 2 i ∧ Q 2 i ≤ 1) (min_n min_n' : Int) (h : min_n ≤ min_n') :
    output_cpg_phred N min_n' Q ≤ output_cpg_phred N min_n Q ∧
    output_cpg_z N min_n Q ≤ output_cpg_z N min_n' Q ∧
    (∀ (min_num min_num' : Int) (min_prop min_prop' : ℝ),
      min_num ≤ min_num' → 0 ≤ min_prop → min_prop ≤ min_prop' →
      min_prop' * (N : ℝ) + 1 / 2 < 2147483648 →
      output_cpg_phred N (output_cpg_min_n min_num' min_prop' N) Q ≤
        output_cpg_phred N (output_cpg_min_n min_num min_prop N) Q) := by
  refine ⟨calc_phred_antitone (output_cpg_z_mono N Q hp h), output_cpg_z_mono N Q hp h, ?_⟩
  intro min_num min_num' min_prop min_prop' h1 h0 h2 hr
  exact calc_phred_antitone
    (output_cpg_z_mono N Q hp (output_cpg_min_n_mono N h1 h0 h2 hr))

theorem C10_witness :
    (∀ i, i < 2 → 0 ≤ scratch [(1 / 2 : ℝ), 1 / 3] 2 i ∧ scratch [(1 / 2 : ℝ), 1 / 3] 2 i ≤ 1) ∧
    (1 : Int) ≤ 2 ∧
    output_cpg_phred 2 2 (scratch [(1 / 2 : ℝ), 1 / 3]) ≤
      output_cpg_phred 2 1 (scratch [(1 / 2 : ℝ), 1 / 3]) := by
  have hp : ∀ i, i < 2 →
      0 ≤ scratch [(1 / 2 : ℝ), 1 / 3] 2 i ∧ scratch [(1 / 2 : ℝ), 1 / 3] 2 i ≤ 1 := by
    intro i hi
    rw [scratch_two]
    interval_cases i <;> norm_num
  exact ⟨hp, by decide,
    (C10_output_cpg_threshold_monotone 2 (scratch [(1 / 2 : ℝ), 1 / 3]) hp 1 2 (by decide)).1⟩

/-! ## Buffer independence and sample order -/

theorem dist_congr {α : Type} [CommRing α] (p p' : Nat → α) (n : Nat)
    (h : ∀ i, i < n → p i = p' i) : ∀ k, dist p n k = dist p' n k := by
  induction n with
  | zero =>
    intro k
    rfl
  | succ n ih =>
    intro k
    have ih1 := ih fun i hi => h i (by omega)
    simp only [dist, ih1, h n (by omega)]

/-- The distribution is the coefficient sequence of the generating polynomial
of the samples. -/
theorem dist_eq_coeff {α : Type} [CommRing α] (p : Nat → α) (n : Nat) :
    ∀ k, dist p n k =
      (∏ i ∈ Finset.range n,
        (Polynomial.C (1 - p i) + Polynomial.C (p i) * Polynomial.X)).coeff k := by
  induction n with
  | zero =>
    intro k
    simp [dist, Polynomial.coeff_one]
  | succ n ih =>
    intro k
    rw [Finset.prod_range_succ, mul_add, Polynomial.coeff_add, Polynomial.coeff_mul_C,
      ← mul_assoc]
    cases k with
    | zero => simp [dist, ih]
    | succ k =>
      rw [Polynomial.coeff_mul_X, Polynomial.coeff_mul_C]
      simp [dist, ih, add_comm]

theorem dist_perm {α : Type} [CommRing α] (N : Nat) (p p' : Nat → α)
    (σ : Equiv.Perm (Fin N)) (h : ∀ i : Fin N, p' i = p (σ i)) :
    ∀ k, dist p' N k = dist p N k := by
  intro k
  rw [dist_eq_coeff, dist_eq_coeff]
  congr 1
  rw [Finset.prod_range, Finset.prod_range]
  simp only [h]
  exact Equiv.prod_comp σ fun i : Fin N =>
    (Polynomial.C (1 - p i) + Polynomial.C (p i) * Polynomial.X)

/-- Claim C19. Scratch-buffer independence: two calls of `get_prob_dist` with the
same sample count `N` whose inputs `Q[2][0 .. N-1]` agree return the same
entries `q[0 .. N]`, whatever `Q[0]`, `Q[1]` and the cells of `Q[2]` from `N`
on held before the calls. -/
theorem C19_get_prob_dist_scratch_independent {α : Type} [CommRing α] (N : Nat)
    (Q Q' : Fin 3 → Buf α) (h : ∀ i, i < N → Q 2 i = Q' 2 i) (k : Nat) (hk : k ≤ N) :
    get_prob_dist N Q k = get_prob_dist N Q' k := by
  rw [get_prob_dist_apply N Q k hk, get_prob_dist_apply N Q' k hk]
  exact dist_congr (Q 2) (Q' 2) N h k

theorem C19_witness :
    (∀ i, i < 2 → scratch [(1 / 2 : ℚ), 1 / 3] 2 i =
      (![fun _ => 0, fun _ => 1, fun i => [(1 / 2 : ℚ), 1 / 3, 5].getD i 4] : Fin 3 → Buf ℚ) 2 i) ∧
    1 ≤ 2 ∧
    get_prob_dist 2 (scratch [(1 / 2 : ℚ), 1 / 3]) 1 =
      get_prob_dist 2
        (![fun _ => 0, fun _ => 1, fun i => [(1 / 2 : ℚ), 1 / 3, 5].getD i 4] : Fin 3 → Buf ℚ) 1 := by
  have h : ∀ i, i < 2 → scratch [(1 / 2 : ℚ), 1 / 3] 2 i =
      (![fun _ => 0, fun _ => 1, fun i => [(1 / 2 : ℚ), 1 / 3, 5].getD i 4] : Fin 3 → Buf ℚ) 2 i := by
    intro i hi
    rw [scratch_two]
    interval_cases i <;> rfl
  exact ⟨h, by decide, C19_get_prob_dist_scratch_independent 2 _ _ h 1 (by decide)⟩

/-- Claim C20. Sample-order invariance: when the array `Q'[2]` is the array
`Q[2]` permuted by a permutation `σ` of `0 .. N-1`, `get_prob_dist` returns the
same entries `q[0 .. N]` for both, and so the tail sum, the site score and the
pass/suppress decision of `output_cpg` are the same for every threshold. -/
theorem C20_get_prob_dist_order_invariant (N : Nat) (Q Q' : Fin 3 → Buf ℝ)
    (σ : Equiv.Perm (Fin N)) (h : ∀ i : Fin N, Q' 2 i = Q 2 (σ i)) :
    (∀ k, k ≤ N → get_prob_dist N Q' k = get_prob_dist N Q k) ∧
    (∀ min_n : Int, output_cpg_z N min_n Q' = output_cpg_z N min_n Q) ∧
    (∀ min_n sel_thresh : Int,
      output_cpg_select (output_cpg_phred N min_n Q') sel_thresh =
        output_cpg_select (output_cpg_phred N min_n Q) sel_thresh) := by
  have hq : ∀ k, k ≤ N → get_prob_dist N Q' k = get_prob_dist N Q k := by
    intro k hk
    rw [get_prob_dist_apply N Q k hk, get_prob_dist_apply N Q' k hk]
    exact dist_perm N (Q 2) (Q' 2) σ h k
  have hz : ∀ min_n : Int, output_cpg_z N min_n Q' = output_cpg_z N min_n Q := by
    intro min_n
    rw [output_cpg_z_eq, output_cpg_z_eq]
    refine Finset.sum_congr rfl fun k hk => hq k ?_
    have := (Finset.mem_filter.1 hk).1
    rw [Finset.mem_range] at this
    omega
  refine ⟨hq, hz, fun min_n sel_thresh => ?_⟩
  unfold output_cpg_phred
  rw [hz]

theorem C20_witness :
    (∀ i : Fin 2, scratch [(1 / 3 : ℝ), 1 / 2] 2 i =
      scratch [(1 / 2 : ℝ), 1 / 3] 2 (Equiv.swap (0 : Fin 2) 1 i)) ∧
    ((∀ k, k ≤ 2 → get_prob_dist 2 (scratch [(1 / 3 : ℝ), 1 / 2]) k =
      get_prob_dist 2 (scratch [(1 / 2 : ℝ), 1 / 3]) k) ∧
    (∀ min_n : Int, output_cpg_z 2 min_n (scratch [(1 / 3 : ℝ), 1 / 2]) =
      output_cpg_z 2 min_n (scratch [(1 / 2 : ℝ), 1 / 3])) ∧
    (∀ min_n sel_thresh : Int,
      output_cpg_select (output_cpg_phred 2 min_n (scratch [(1 / 3 : ℝ), 1 / 2])) sel_thresh =
        output_cpg_select (output_cpg_phred 2 min_n (scratch [(1 / 2 : ℝ), 1 / 3]))
          sel_thresh)) := by
  have h : ∀ i : Fin 2, scratch [(1 / 3 : ℝ), 1 / 2] 2 i =
      scratch [(1 / 2 : ℝ), 1 / 3] 2 (Equiv.swap (0 : Fin 2) 1 i) := by
    intro i
    rw [scratch_two, scratch_two]
    fin_cases i <;> simp
  exact ⟨h, C20_get_prob_dist_order_invariant 2 _ _ (Equiv.swap (0 : Fin 2) 1) h⟩

/-! ## The end-to-end scenarios of the site decision -/

theorem output_cpg_z_all_one {α : Type} [CommRing α] (N : Nat) (min_n : Int)
    (Q : Fin 3 → Buf α) (h2 : min_n ≤ N) (h1 : 1 ≤ min_n) (hp : ∀ i, i < N → Q 2 i = 1) :
    output_cpg_z N min_n Q = 0 := by
  rw [output_cpg_z_eq]
  refine Finset.sum_eq_zero fun k hk => ?_
  rw [Finset.mem_filter, Finset.mem_range, max_eq_left h1] at hk
  have hk1 : k < N := by omega
  rw [get_prob_dist_apply N Q k (by omega), dist_all_one (Q 2) N hp]
  have : k ≠ N := by omega
  simp [this]

theorem output_cpg_z_all_zero {α : Type} [CommRing α] (N : Nat) (min_n : Int)
    (Q : Fin 3 → Buf α) (h1 : 1 ≤ min_n) (hp : ∀ i, i < N → Q 2 i = 0) :
    output_cpg_z N min_n Q = 1 := by
  rw [output_cpg_z_eq]
  have h0 : 0 ∈ (Finset.range (N + 1)).filter (fun k : Nat => (k : Int) < max min_n 1) := by
    rw [Finset.mem_filter, Finset.mem_range, max_eq_left h1]
    exact ⟨by omega, by simpa using h1⟩
  rw [Finset.sum_eq_single_of_mem 0 h0]
  · rw [get_prob_dist_apply N Q 0 (Nat.zero_le N), dist_all_zero (Q 2) N hp]
    simp
  · intro k hk hk0
    rw [Finset.mem_filter, Finset.mem_range] at hk
    rw [get_prob_dist_apply N Q k (by omega), dist_all_zero (Q 2) N hp]
    simp [hk0]

/-- Claim C16. End-to-end pass: for `1 ≤ min_n ≤ N` (so `N ≥ 1`) and all `N`
probabilities equal to 1, `get_prob_dist` gives `q = [0, ..., 0, 1]`, the tail
sum `z` is 0, the score is 255 and the site passes `phred >= sel_thresh` for
every `sel_thresh ≤ 255`. -/
theorem C16_output_cpg_all_one_passes (N : Nat) (min_n : Int) (Q : Fin 3 → Buf ℝ)
    (h1 : 1 ≤ min_n) (h2 : min_n ≤ N) (hp : ∀ i, i < N → Q 2 i = 1)
    (sel_thresh : Int) (hs : sel_thresh ≤ 255) :
    (get_prob_dist N Q N = 1 ∧ ∀ k, k < N → get_prob_dist N Q k = 0) ∧
    output_cpg_z N min_n Q = 0 ∧
    output_cpg_phred N min_n Q = 255 ∧
    output_cpg_select (output_cpg_phred N min_n Q) sel_thresh = true := by
  have hz := output_cpg_z_all_one N min_n Q h2 h1 hp
  have hphred : output_cpg_phred N min_n Q = 255 := by
    unfold output_cpg_phred
    rw [hz, calc_phred_zero]
  refine ⟨⟨?_, fun k hk => ?_⟩, hz, hphred, ?_⟩
  · rw [get_prob_dist_apply N Q N (le_refl N), dist_all_one (Q 2) N hp]
    simp
  · have : k ≠ N := by omega
    rw [get_prob_dist_apply N Q k (by omega), dist_all_one (Q 2) N hp]
    simp [this]
  · rw [hphred]
    unfold output_cpg_select
    exact decide_eq_true hs

theorem C16_witness :
    ((1 : Int) ≤ 1 ∧ (1 : Int) ≤ (2 : Nat) ∧ (∀ i, i < 2 → scratch [(1 : ℝ), 1] 2 i = 1) ∧
      (255 : Int) ≤ 255) ∧
    ((get_prob_dist 2 (scratch [(1 : ℝ), 1]) 2 = 1 ∧
      ∀ k, k < 2 → get_prob_dist 2 (scratch [(1 : ℝ), 1]) k = 0) ∧
    output_cpg_z 2 1 (scratch [(1 : ℝ), 1]) = 0 ∧
    output_cpg_phred 2 1 (scratch [(1 : ℝ), 1]) = 255 ∧
    output_cpg_select (output_cpg_phred 2 1 (scratch [(1 : ℝ), 1])) 255 = true) := by
  have hp : ∀ i, i < 2 → scratch [(1 : ℝ), 1] 2 i = 1 := by
    intro i hi
    rw [scratch_two]
    interval_cases i <;> rfl
  exact ⟨⟨le_refl 1, by decide, hp, le_refl 255⟩,
    C16_output_cpg_all_one_passes 2 1 (scratch [(1 : ℝ), 1]) (le_refl 1) (by decide) hp 255
      (le_refl 255)⟩

/-- Claim C17. End-to-end suppression: for every `N`, every `min_n ≥ 1` and all
`N` probabilities equal to 0, `get_prob_dist` gives `q = [1, 0, ..., 0]`, the
tail sum `z` is 1, the score is 0 and the site fails `phred >= sel_thresh` for
every `sel_thresh > 0`. -/
theorem C17_output_cpg_all_zero_suppressed (N : Nat) (min_n : Int) (Q : Fin 3 → Buf ℝ)
    (h1 : 1 ≤ min_n) (hp : ∀ i, i < N → Q 2 i = 0) (sel_thresh : Int) (hs : 0 < sel_thresh) :
    (get_prob_dist N Q 0 = 1 ∧ ∀ k, 1 ≤ k → k ≤ N → get_prob_dist N Q k = 0) ∧
    output_cpg_z N min_n Q = 1 ∧
    output_cpg_phred N min_n Q = 0 ∧
    output_cpg_select (output_cpg_phred N min_n Q) sel_thresh = false := by
  have hz := output_cpg_z_all_zero N min_n Q h1 hp
  have hphred : output_cpg_phred N min_n Q = 0 := by
    unfold output_cpg_phred
    rw [hz, calc_phred_one]
  refine ⟨⟨?_, fun k hk1 hk => ?_⟩, hz, hphred, ?_⟩
  · rw [get_prob_dist_apply N Q 0 (Nat.zero_le N), dist_all_zero (Q 2) N hp]
    simp
  · have : k ≠ 0 := by omega
    rw [get_prob_dist_apply N Q k hk, dist_all_zero (Q 2) N hp]
    simp [this]
  · rw [hphred]
    unfold output_cpg_select
    exact decide_eq_false (not_le.2 hs)

theorem C17_witness :
    ((1 : Int) ≤ 1 ∧ (∀ i, i < 3 → scratch [(0 : ℝ), 0, 0] 2 i = 0) ∧ (0 : Int) < 1) ∧
    ((get_prob_dist 3 (scratch [(0 : ℝ), 0, 0]) 0 = 1 ∧
      ∀ k, 1 ≤ k → k ≤ 3 → get_prob_dist 3 (scratch [(0 : ℝ), 0, 0]) k = 0) ∧
    output_cpg_z 3 1 (scratch [(0 : ℝ), 0, 0]) = 1 ∧
    output_cpg_phred 3 1 (scratch [(0 : ℝ), 0, 0]) = 0 ∧
    output_cpg_select (output_cpg_phred 3 1 (scratch [(0 : ℝ), 0, 0])) 1 = false) := by
  have hp : ∀ i, i < 3 → scratch [(0 : ℝ), 0, 0] 2 i = 0 := by
    intro i hi
    rw [scratch_two]
    interval_cases i <;> rfl
  exact ⟨⟨le_refl 1, hp, by decide⟩,
    C17_output_cpg_all_zero_suppressed 3 1 (scratch [(0 : ℝ), 0, 0]) (le_refl 1) hp 1
      (by decide)⟩

/-! ## The complement table and the aggregated counts -/

theorem trans_base_involutive : ∀ c ∈ trans_codes, trans_base (trans_base c) = c := by
  decide

theorem trans_base_mem : ∀ c ∈ trans_codes, trans_base c ∈ trans_codes := by
  decide

/-- Claim C15. The complement table is an involution on the 16 codes it
defines: `trans_base[trans_base[c]] = c` for each of them, so translating a
string over these codes twice gives the string back, also with the reversal of
lines 222-224; `.` and `N` map to themselves, `A` and `T`, `C` and `G` are
exchanged. -/
theorem C15_trans_base_involution :
    (∀ c ∈ trans_codes, trans_base (trans_base c) = c) ∧
    (∀ s : List Char, (∀ c ∈ s, c ∈ trans_codes) →
      (s.map trans_base).map trans_base = s) ∧
    (∀ cx_p : Nat → Char, (∀ j, j < 3 → cx_p j ∈ trans_codes) →
      ∀ j, j < 3 → output_cpg_tmp (output_cpg_tmp cx_p) j = cx_p j) ∧
    trans_base '.' = '.' ∧ trans_base 'N' = 'N' ∧
    trans_base 'A' = 'T' ∧ trans_base 'T' = 'A' ∧
    trans_base 'C' = 'G' ∧ trans_base 'G' = 'C' := by
  refine ⟨trans_base_involutive, ?_, ?_, rfl, rfl, rfl, rfl, rfl, rfl⟩
  · intro s hs
    rw [List.map_map]
    conv_rhs => rw [← List.map_id s]
    exact List.map_congr_left fun c hc => trans_base_involutive c (hs c hc)
  · intro cx_p h j hj
    have h0 := trans_base_involutive _ (h 0 (by omega))
    have h1 := trans_base_involutive _ (h 1 (by omega))
    have h2 := trans_base_involutive _ (h 2 (by omega))
    interval_cases j <;> simpa [output_cpg_tmp, Function.update]

theorem C15_witness :
    (∀ c ∈ ['C', 'A', 'G'], c ∈ trans_codes) ∧
    (['C', 'A', 'G'].map trans_base).map trans_base = ['C', 'A', 'G'] :=
  ⟨by decide, C15_trans_base_involution.2.1 ['C', 'A', 'G'] (by decide)⟩

theorem wrap32_eq {x : Int} (h0 : -2147483648 ≤ x) (h : x < 2147483648) : wrap32 x = x := by
  unfold wrap32
  omega

theorem list_sum_counts_nonneg (c : Nat → Int) (l : List Nat)
    (h : ∀ i, i ∈ l → 0 ≤ c i) : 0 ≤ (l.map c).sum := by
  induction l with
  | nil => simp
  | cons i l ih =>
    rw [List.map_cons, List.sum_cons]
    have h1 := h i (List.mem_cons_self i l)
    have h2 := ih fun j hj => h j (List.mem_cons_of_mem i hj)
    omega

theorem ct_step_facts (g : gt_meth) (msk : Nat) (st : Nat × Int × Int) (i : Nat)
    (hi : 0 ≤ g.counts i) (h0 : 0 ≤ st.2.1) (hst : st.2.1 ≤ st.2.2)
    (hb : st.2.2 + g.counts i < 2147483648) :
    (output_cpg_ct_step g msk st i).2.2 = st.2.2 + g.counts i ∧
    0 ≤ (output_cpg_ct_step g msk st i).2.1 ∧
    (output_cpg_ct_step g msk st i).2.1 ≤ (output_cpg_ct_step g msk st i).2.2 := by
  have e3 : wrap32 (st.2.2 + g.counts i) = st.2.2 + g.counts i :=
    wrap32_eq (by omega) (by omega)
  have e2 : wrap32 (st.2.1 + g.counts i) = st.2.1 + g.counts i :=
    wrap32_eq (by omega) (by omega)
  unfold output_cpg_ct_step
  by_cases hm : msk &&& st.1 ≠ 0
  · simp only [if_pos hm, e2, e3]
    and_intros <;> first | trivial | omega
  · simp only [if_neg hm, e3]
    and_intros <;> first | trivial | omega

theorem ct_step2_facts (g1 g2 : gt_meth) (msk1 msk2 : Nat) (st : Nat × Int × Int) (i : Nat)
    (hi1 : 0 ≤ g1.counts i) (hi2 : 0 ≤ g2.counts i) (h0 : 0 ≤ st.2.1)
    (hst : st.2.1 ≤ st.2.2) (hb : st.2.2 + (g1.counts i + g2.counts i) < 2147483648) :
    (output_cpg_ct_step2 g1 g2 msk1 msk2 st i).2.2 =
      st.2.2 + (g1.counts i + g2.counts i) ∧
    0 ≤ (output_cpg_ct_step2 g1 g2 msk1 msk2 st i).2.1 ∧
    (output_cpg_ct_step2 g1 g2 msk1 msk2 st i).2.1 ≤
      (output_cpg_ct_step2 g1 g2 msk1 msk2 st i).2.2 := by
  have e0 : wrap32 (g1.counts i + g2.counts i) = g1.counts i + g2.counts i :=
    wrap32_eq (by omega) (by omega)
  have e3 : wrap32 (st.2.2 + (g1.counts i + g2.counts i)) =
      st.2.2 + (g1.counts i + g2.counts i) := wrap32_eq (by omega) (by omega)
  have e21 : wrap32 (st.2.1 + g1.counts i) = st.2.1 + g1.counts i :=
    wrap32_eq (by omega) (by omega)
  have e22 : wrap32 (st.2.1 + g2.counts i) = st.2.1 + g2.counts i :=
    wrap32_eq (by omega) (by omega)
  have e23 : wrap32 (st.2.1 + g1.counts i + g2.counts i) =
      st.2.1 + g1.counts i + g2.counts i := wrap32_eq (by omega) (by omega)
  unfold output_cpg_ct_step2
  by_cases hm1 : msk1 &&& st.1 ≠ 0 <;> by_cases hm2 : msk2 &&& st.1 ≠ 0
  · simp only [if_pos hm1, if_pos hm2, e0, e3, e21, e23]
    and_intros <;> first | trivial | omega
  · simp only [if_pos hm1, if_neg hm2, e0, e3, e21]
    and_intros <;> first | trivial | omega
  · simp only [if_neg hm1, if_pos hm2, e0, e3, e22]
    and_intros <;> first | trivial | omega
  · simp only [if_neg hm1, if_neg hm2, e0, e3]
    and_intros <;> first | trivial | omega

/-- The loop over the counts of one call, while the sum of the counts fits in
32 bits: no sum wraps, `ct[3]` is the sum and `0 ≤ ct[2] ≤ ct[3]`. -/
theorem ct_loop_fold {g : gt_meth} {msk : Nat} (l : List Nat)
    (h : ∀ i, i ∈ l → 0 ≤ g.counts i) :
    ∀ st : Nat × Int × Int, 0 ≤ st.2.1 → st.2.1 ≤ st.2.2 →
      st.2.2 + (l.map g.counts).sum < 2147483648 →
      0 ≤ (l.foldl (output_cpg_ct_step g msk) st).2.1 ∧
      (l.foldl (output_cpg_ct_step g msk) st).2.1 ≤
        (l.foldl (output_cpg_ct_step g msk) st).2.2 ∧
      (l.foldl (output_cpg_ct_step g msk) st).2.2 = st.2.2 + (l.map g.counts).sum := by
  induction l with
  | nil =>
    intro st h0 hst _
    simp [h0, hst]
  | cons i l ih =>
    intro st h0 hst hsum
    rw [List.map_cons, List.sum_cons] at hsum
    have hi := h i (List.mem_cons_self i l)
    have hl := list_sum_counts_nonneg g.counts l fun j hj => h j (List.mem_cons_of_mem i hj)
    obtain ⟨f3, f0, f2⟩ := ct_step_facts g msk st i hi h0 hst (by omega)
    rw [List.foldl_cons, List.map_cons, List.sum_cons]
    obtain ⟨r0, r2, r3⟩ := ih (fun j hj => h j (List.mem_cons_of_mem i hj))
      (output_cpg_ct_step g msk st i) f0 f2 (by omega)
    exact ⟨r0, r2, by omega⟩

/-- The loop over the counts of both calls (combined mode), while the sum of
the 16 counts fits in 32 bits: no sum wraps, `ct[3]` is the sum and
`0 ≤ ct[2] ≤ ct[3]`. -/
theorem ct_loop2_fold {g1 g2 : gt_meth} {msk1 msk2 : Nat} (l : List Nat)
    (h1 : ∀ i, i ∈ l → 0 ≤ g1.counts i) (h2 : ∀ i, i ∈ l → 0 ≤ g2.counts i) :
    ∀ st : Nat × Int × Int, 0 ≤ st.2.1 → st.2.1 ≤ st.2.2 →
      st.2.2 + ((l.map g1.counts).sum + (l.map g2.counts).sum) < 2147483648 →
      0 ≤ (l.foldl (output_cpg_ct_step2 g1 g2 msk1 msk2) st).2.1 ∧
      (l.foldl (output_cpg_ct_step2 g1 g2 msk1 msk2) st).2.1 ≤
        (l.foldl (output_cpg_ct_step2 g1 g2 msk1 msk2) st).2.2 ∧
      (l.foldl (output_cpg_ct_step2 g1 g2 msk1 msk2) st).2.2 =
        st.2.2 + ((l.map g1.counts).sum + (l.map g2.counts).sum) := by
  induction l with
  | nil =>
    intro st h0 hst _
    simp [h0, hst]
  | cons i l ih =>
    intro st h0 hst hsum
    rw [List.map_cons, List.sum_cons, List.map_cons, List.sum_cons] at hsum
    have hi1 := h1 i (List.mem_cons_self i l)
    have hi2 := h2 i (List.mem_cons_self i l)
    have hl1 := list_sum_counts_nonneg g1.counts l fun j hj =>
      h1 j (List.mem_cons_of_mem i hj)
    have hl2 := list_sum_counts_nonneg g2.counts l fun j hj =>
      h2 j (List.mem_cons_of_mem i hj)
    obtain ⟨f3, f0, f2⟩ := ct_step2_facts g1 g2 msk1 msk2 st i hi1 hi2 h0 hst (by omega)
    rw [List.foldl_cons, List.map_cons, List.sum_cons, List.map_cons, List.sum_cons]
    obtain ⟨r0, r2, r3⟩ := ih (fun j hj => h1 j (List.mem_cons_of_mem i hj))
      (fun j hj => h2 j (List.mem_cons_of_mem i hj))
      (output_cpg_ct_step2 g1 g2 msk1 msk2 st i) f0 f2 (by omega)
    exact ⟨r0, r2, by omega⟩

theorem list_range_8_sum (c : Nat → Int) :
    ((List.range 8).map c).sum = c 0 + c 1 + c 2 + c 3 + c 4 + c 5 + c 6 + c 7 := by
  have hr : List.range 8 = [0, 1, 2, 3, 4, 5, 6, 7] := rfl
  rw [hr]
  simp only [List.map_cons, List.map_nil, List.sum_cons, List.sum_nil]
  ring

theorem call_counts (c : List Int) (max_gt : Nat) (skip : Bool) (i : Nat) :
    (call c max_gt skip).counts i = c.getD i 0 := rfl

/-- Claim C14, counterexample. The call with the non-negative read counts
`[2147483647, 1, 0, 0, 0, 0, 0, 0]` and the genotype index 0 (mask `0x11`) gets
`ct[2] = 2147483647` and, the `int32_t` sum of line 153 wrapping,
`ct[3] = -2147483648`: `ct[2] ≤ ct[3]` fails. -/
theorem C14_counterexample :
    (∀ i, i < 8 → 0 ≤ (call [2147483647, 1, 0, 0, 0, 0, 0, 0] 0 false).counts i) ∧
    output_cpg_ct (call [2147483647, 1, 0, 0, 0, 0, 0, 0] 0 false) 0 =
      (0, 0, 2147483647, -2147483648) ∧
    ¬ ((output_cpg_ct (call [2147483647, 1, 0, 0, 0, 0, 0, 0] 0 false) 0).2.2.1 ≤
      (output_cpg_ct (call [2147483647, 1, 0, 0, 0, 0, 0, 0] 0 false) 0).2.2.2) := by
  have h : ∀ i, i < 8 → 0 ≤ (call [2147483647, 1, 0, 0, 0, 0, 0, 0] 0 false).counts i := by
    intro i hi
    rw [call_counts]
    interval_cases i <;> decide
  have hv : output_cpg_ct (call [2147483647, 1, 0, 0, 0, 0, 0, 0] 0 false) 0 =
      (0, 0, 2147483647, -2147483648) := by
    decide
  refine ⟨h, hv, ?_⟩
  rw [hv]
  decide

/-- Claim C14, amended. Aggregated-count invariant: for calls whose 8 read
counts are non-negative and add up to less than `2^31` (both calls together in
the combined mode), and every genotype index `max_gt` (so for each of
`0 .. 9`), the counts of the combined mode and the counts of the
strand-specific and non-CpG output satisfy `ct[2] ≤ ct[3]` and
`ct[0] + ct[1] ≤ ct[3]`. -/
theorem C14_output_cpg_counts_invariant (g1 g2 g : gt_meth) (pos : Nat)
    (h1 : ∀ i, i < 8 → 0 ≤ g1.counts i) (h2 : ∀ i, i < 8 → 0 ≤ g2.counts i)
    (h : ∀ i, i < 8 → 0 ≤ g.counts i)
    (ht12 : (g1.counts 0 + g1.counts 1 + g1.counts 2 + g1.counts 3 + g1.counts 4 +
        g1.counts 5 + g1.counts 6 + g1.counts 7) +
      (g2.counts 0 + g2.counts 1 + g2.counts 2 + g2.counts 3 + g2.counts 4 +
        g2.counts 5 + g2.counts 6 + g2.counts 7) < 2147483648)
    (ht : g.counts 0 + g.counts 1 + g.counts 2 + g.counts 3 + g.counts 4 +
      g.counts 5 + g.counts 6 + g.counts 7 < 2147483648) :
    ((output_cpg_ct_combined g1 g2).2.2.1 ≤ (output_cpg_ct_combined g1 g2).2.2.2 ∧
      (output_cpg_ct_combined g1 g2).1 + (output_cpg_ct_combined g1 g2).2.1 ≤
        (output_cpg_ct_combined g1 g2).2.2.2) ∧
    ((output_cpg_ct g pos).2.2.1 ≤ (output_cpg_ct g pos).2.2.2 ∧
      (output_cpg_ct g pos).1 + (output_cpg_ct g pos).2.1 ≤ (output_cpg_ct g pos).2.2.2) := by
  have hr : ∀ i, i ∈ List.range 8 → i < 8 := fun i hi => List.mem_range.1 hi
  have a0 := h1 0 (by omega)
  have a1 := h1 1 (by omega)
  have a2 := h1 2 (by omega)
  have a3 := h1 3 (by omega)
  have a4 := h1 4 (by omega)
  have a5 := h1 5 (by omega)
  have a6 := h1 6 (by omega)
  have a7 := h1 7 (by omega)
  have b0 := h2 0 (by omega)
  have b1 := h2 1 (by omega)
  have b2 := h2 2 (by omega)
  have b3 := h2 3 (by omega)
  have b4 := h2 4 (by omega)
  have b5 := h2 5 (by omega)
  have b6 := h2 6 (by omega)
  have b7 := h2 7 (by omega)
  have c0 := h 0 (by omega)
  have c1 := h 1 (by omega)
  have c2 := h 2 (by omega)
  have c3 := h 3 (by omega)
  have c4 := h 4 (by omega)
  have c5 := h 5 (by omega)
  have c6 := h 6 (by omega)
  have c7 := h 7 (by omega)
  have s2 : ((1 : Nat), (0 : Int), (0 : Int)).2.2 +
      (((List.range 8).map g1.counts).sum + ((List.range 8).map g2.counts).sum) <
        2147483648 := by
    rw [list_range_8_sum, list_range_8_sum]
    show (0 : Int) + _ < _
    omega
  have s1 : ((1 : Nat), (0 : Int), (0 : Int)).2.2 + ((List.range 8).map g.counts).sum <
      2147483648 := by
    rw [list_range_8_sum]
    show (0 : Int) + _ < _
    omega
  have k2 := @ct_loop2_fold g1 g2 (gt_msk g1.max_gt) (gt_msk g2.max_gt) (List.range 8)
    (fun i hi => h1 i (hr i hi)) (fun i hi => h2 i (hr i hi)) (1, 0, 0) (le_refl 0)
    (le_refl 0) s2
  have k1 := @ct_loop_fold g (gt_msk g.max_gt) (List.range 8)
    (fun i hi => h i (hr i hi)) (1, 0, 0) (le_refl 0) (le_refl 0) s1
  have z3 : ((1 : Nat), (0 : Int), (0 : Int)).2.2 = 0 := rfl
  rw [list_range_8_sum, list_range_8_sum, z3] at k2
  rw [list_range_8_sum, z3] at k1
  clear s1 s2
  have e0 : wrap32 (g1.counts 5 + g2.counts 6) = g1.counts 5 + g2.counts 6 :=
    wrap32_eq (by omega) (by omega)
  have e1 : wrap32 (g1.counts 7 + g2.counts 4) = g1.counts 7 + g2.counts 4 :=
    wrap32_eq (by omega) (by omega)
  refine ⟨⟨k2.2.1, ?_⟩, k1.2.1, ?_⟩
  · simp only [output_cpg_ct_combined, output_cpg_ct_loop2, e0, e1]
    rw [k2.2.2]
    omega
  · simp only [output_cpg_ct, output_cpg_ct_loop]
    rw [k1.2.2]
    split <;> omega

theorem C14_witness :
    ((∀ i, i < 8 → 0 ≤ (call [1, 0, 2, 0, 3, 9, 1, 4] 4 false).counts i) ∧
      (∀ i, i < 8 → 0 ≤ (call [0, 2, 0, 1, 5, 0, 8, 1] 7 false).counts i)) ∧
    (((output_cpg_ct_combined (call [1, 0, 2, 0, 3, 9, 1, 4] 4 false)
          (call [0, 2, 0, 1, 5, 0, 8, 1] 7 false)).2.2.1 ≤
        (output_cpg_ct_combined (call [1, 0, 2, 0, 3, 9, 1, 4] 4 false)
          (call [0, 2, 0, 1, 5, 0, 8, 1] 7 false)).2.2.2 ∧
      (output_cpg_ct_combined (call [1, 0, 2, 0, 3, 9, 1, 4] 4 false)
          (call [0, 2, 0, 1, 5, 0, 8, 1] 7 false)).1 +
        (output_cpg_ct_combined (call [1, 0, 2, 0, 3, 9, 1, 4] 4 false)
          (call [0, 2, 0, 1, 5, 0, 8, 1] 7 false)).2.1 ≤
        (output_cpg_ct_combined (call [1, 0, 2, 0, 3, 9, 1, 4] 4 false)
          (call [0, 2, 0, 1, 5, 0, 8, 1] 7 false)).2.2.2) ∧
    ((output_cpg_ct (call [1, 0, 2, 0, 3, 9, 1, 4] 4 false) 0).2.2.1 ≤
        (output_cpg_ct (call [1, 0, 2, 0, 3, 9, 1, 4] 4 false) 0).2.2.2 ∧
      (output_cpg_ct (call [1, 0, 2, 0, 3, 9, 1, 4] 4 false) 0).1 +
        (output_cpg_ct (call [1, 0, 2, 0, 3, 9, 1, 4] 4 false) 0).2.1 ≤
        (output_cpg_ct (call [1, 0, 2, 0, 3, 9, 1, 4] 4 false) 0).2.2.2)) := by
  have h1 : ∀ i, i < 8 → 0 ≤ (call [1, 0, 2, 0, 3, 9, 1, 4] 4 false).counts i := by
    intro i hi
    rw [call_counts]
    interval_cases i <;> decide
  have h2 : ∀ i, i < 8 → 0 ≤ (call [0, 2, 0, 1, 5, 0, 8, 1] 7 false).counts i := by
    intro i hi
    rw [call_counts]
    interval_cases i <;> decide
  exact ⟨⟨h1, h2⟩,
    C14_output_cpg_counts_invariant _ _ _ 0 h1 h2 h1 (by decide) (by decide)⟩

/-! ## The per-sample probability and the mapping quality -/

theorem output_cpg_fill_two (min_inform : Int) (sel : sel_mode) (gt1 gt2 : Nat → gt_meth)
    (Q : Fin 3 → Buf ℝ) (n : Nat) :
    ∀ ix, output_cpg_fill n min_inform sel gt1 gt2 Q 2 ix =
      if ix < n then output_cpg_prob min_inform sel (gt1 ix) (gt2 ix) else Q 2 ix := by
  induction n with
  | zero =>
    intro ix
    simp [output_cpg_fill]
  | succ n ih =>
    intro ix
    unfold output_cpg_fill at ih ⊢
    rw [List.range_succ, List.foldl_append, List.foldl_cons, List.foldl_nil,
      Function.update_same]
    by_cases h : ix = n
    · subst h
      simp
    · rw [Function.update_noteq h, ih]
      have : ix < n + 1 ↔ ix < n := by omega
      simp only [this]

theorem output_cpg_prob_of_skip (min_inform : Int) (sel : sel_mode) (g1 g2 : gt_meth)
    (h : g1.skip = true ∨ g2.skip = true) : output_cpg_prob min_inform sel g1 g2 = 0 := by
  unfold output_cpg_prob
  rcases h with h | h <;> simp [h]

/-- Claim C13, the code at the failing inputs. For a sample `ix` whose two calls
are not skipped, the value stored in `Q[2][ix]` is positive, not 0, as soon as
`g2.counts[6] + g1.counts[4] >= min_inform`, whatever `g2.counts[4]` is, hence
also when both informative-read counts of the claim are below the minimum:
line 58 reads `counts[4]` of the forward call `g1` where the reverse call `g2`
is meant. -/
theorem C13_output_cpg_prob_reads_forward_count (ns : Nat) (min_inform : Int)
    (sel : sel_mode) (gt1 gt2 : Nat → gt_meth) (Q : Fin 3 → Buf ℝ) (ix : Nat)
    (hix : ix < ns) (h1 : (gt1 ix).skip = false) (h2 : (gt2 ix).skip = false)
    (hc : min_inform ≤ (gt2 ix).counts 6 + (gt1 ix).counts 4) :
    0 < output_cpg_fill ns min_inform sel gt1 gt2 Q 2 ix := by
  rw [output_cpg_fill_two, if_pos hix]
  unfold output_cpg_prob
  have hcond : (gt1 ix).counts 5 + (gt1 ix).counts 7 ≥ min_inform ∨
      (gt2 ix).counts 6 + (gt1 ix).counts 4 ≥ min_inform := Or.inr hc
  simp only [h1, h2, Bool.or_self, Bool.not_false, if_true, hcond]
  split
  · exact Real.exp_pos _
  · have e1 := Real.exp_pos ((gt1 ix).gt_prob 1)
    have e2 := Real.exp_pos ((gt1 ix).gt_prob 4)
    have e3 := Real.exp_pos ((gt1 ix).gt_prob 5)
    have e4 := Real.exp_pos ((gt1 ix).gt_prob 6)
    have f1 := Real.exp_pos ((gt2 ix).gt_prob 2)
    have f2 := Real.exp_pos ((gt2 ix).gt_prob 5)
    have f3 := Real.exp_pos ((gt2 ix).gt_prob 7)
    have f4 := Real.exp_pos ((gt2 ix).gt_prob 8)
    positivity

theorem C13_witness :
    ((0 : Nat) < 1 ∧
      (call [0, 0, 0, 0, 10, 0, 0, 0] 4 false).skip = false ∧
      (call [0, 0, 0, 0, 0, 0, 0, 0] 7 false).skip = false ∧
      (call [0, 0, 0, 0, 10, 0, 0, 0] 4 false).counts 5 +
        (call [0, 0, 0, 0, 10, 0, 0, 0] 4 false).counts 7 < 5 ∧
      (call [0, 0, 0, 0, 0, 0, 0, 0] 7 false).counts 6 +
        (call [0, 0, 0, 0, 0, 0, 0, 0] 7 false).counts 4 < 5) ∧
    0 < output_cpg_fill 1 5 sel_mode.SELECT_HOM
      (fun _ => call [0, 0, 0, 0, 10, 0, 0, 0] 4 false)
      (fun _ => call [0, 0, 0, 0, 0, 0, 0, 0] 7 false) (scratch []) 2 0 :=
  ⟨⟨by decide, rfl, rfl, by decide, by decide⟩,
    C13_output_cpg_prob_reads_forward_count 1 5 sel_mode.SELECT_HOM
      (fun _ => call [0, 0, 0, 0, 10, 0, 0, 0] 4 false)
      (fun _ => call [0, 0, 0, 0, 0, 0, 0, 0] 7 false) (scratch []) 0
      (by decide) rfl rfl (by decide)⟩

theorem output_cpg_totals_eq (g1 g2 : gt_meth) :
    output_cpg_totals g1 g2 =
      ((((g1.counts 0 + g1.counts 1 + g1.counts 2 + g1.counts 3 + g1.counts 4 +
          g1.counts 5 + g1.counts 6 + g1.counts 7 : Int) : ℝ)),
        (((g2.counts 0 + g2.counts 1 + g2.counts 2 + g2.counts 3 + g2.counts 4 +
          g2.counts 5 + g2.counts 6 + g2.counts 7 : Int) : ℝ))) := by
  have hr : List.range 8 = [0, 1, 2, 3, 4, 5, 6, 7] := rfl
  unfold output_cpg_totals
  rw [hr]
  simp only [List.foldl_cons, List.foldl_nil]
  push_cast
  simp

/-- The division of line 101 is reached with a divisor other than 0 only: the
mapping quality always has a value. -/
theorem output_cpg_mq_some (mq_p1 mq_p2 : Option (Nat → Int)) (g1 g2 : gt_meth) (ix : Nat) :
    ∃ mq, output_cpg_mq mq_p1 mq_p2 g1 g2 ix = some mq := by
  unfold output_cpg_mq
  cases mq_p1 with
  | none =>
    cases mq_p2 with
    | none => exact ⟨-1, rfl⟩
    | some a2 => exact ⟨a2 ix, rfl⟩
  | some a1 =>
    cases mq_p2 with
    | none => exact ⟨a1 ix, rfl⟩
    | some a2 =>
      simp only
      split
      · rename_i h
        have hne : (output_cpg_totals g1 g2).1 + (output_cpg_totals g1 g2).2 ≠ 0 := ne_of_gt h
        simp [guarded_div, hne]
      · exact ⟨-1, rfl⟩

theorem output_cpg_mq_of_totals_zero (a1 a2 : Nat → Int) (g1 g2 : gt_meth) (ix : Nat)
    (h : (output_cpg_totals g1 g2).1 + (output_cpg_totals g1 g2).2 = 0) :
    output_cpg_mq (some a1) (some a2) g1 g2 ix = some (-1) := by
  unfold output_cpg_mq
  simp [h]

theorem output_cpg_mq_both (a1 a2 : Nat → Int) (g1 g2 : gt_meth) (ix : Nat)
    (h : 0 < (output_cpg_totals g1 g2).1 + (output_cpg_totals g1 g2).2) :
    output_cpg_mq (some a1) (some a2) g1 g2 ix =
      some (int_of_double (1 / 2 + Real.sqrt
        ((((a1 ix : Int) : ℝ) * ((a1 ix : Int) : ℝ) * (output_cpg_totals g1 g2).1 +
            ((a2 ix : Int) : ℝ) * ((a2 ix : Int) : ℝ) + (output_cpg_totals g1 g2).2) /
          ((output_cpg_totals g1 g2).1 + (output_cpg_totals g1 g2).2)))) := by
  unfold output_cpg_mq
  simp only
  rw [if_pos h]
  unfold guarded_div
  rw [if_neg (ne_of_gt h)]
  rfl

/-- Claim C12, the code at the failing input. With `mq1 = mq2 = 60` and
`n1 = n2 = 10` reads the code of line 101 gives `MQ = 45`, where the
read-count-weighted root mean square of the claim is 60: the term for the
second strand is `mq2 * mq2 + n2`, not `mq2 * mq2 * n2`. -/
theorem C12_output_cpg_mq_evaluated :
    output_cpg_mq (some fun _ => 60) (some fun _ => 60)
      (call [0, 0, 0, 0, 0, 10, 0, 0] 4 false) (call [0, 0, 0, 0, 0, 0, 10, 0] 7 false) 0 =
        some 45 ∧
    mq_spec 60 60 10 10 = 60 := by
  constructor
  · have ht : output_cpg_totals (call [0, 0, 0, 0, 0, 10, 0, 0] 4 false)
        (call [0, 0, 0, 0, 0, 0, 10, 0] 7 false) = (10, 10) := by
      rw [output_cpg_totals_eq]
      simp only [call_counts]
      norm_num
    rw [output_cpg_mq_both _ _ _ _ _ (by rw [ht]; norm_num), ht]
    have hv : (((60 : Int) : ℝ) * ((60 : Int) : ℝ) * (10 : ℝ) +
        ((60 : Int) : ℝ) * ((60 : Int) : ℝ) + 10) / (10 + 10) = 3961 / 2 := by norm_num
    simp only [hv]
    unfold int_of_double
    have hs : (0 : ℝ) ≤ 1 / 2 + Real.sqrt (3961 / 2) := by positivity
    rw [if_pos hs, Option.some_inj, Int.floor_eq_iff]
    constructor
    · have : (89 / 2 : ℝ) ≤ Real.sqrt (3961 / 2) := by
        rw [Real.le_sqrt' (by norm_num)]
        norm_num
      push_cast
      linarith
    · have : Real.sqrt (3961 / 2) < 91 / 2 := by
        rw [Real.sqrt_lt' (by norm_num)]
        norm_num
      push_cast
      linarith
  · unfold mq_spec
    have h : ((60 : ℝ) ^ 2 * 10 + 60 ^ 2 * 10) / (10 + 10) = 60 ^ 2 := by norm_num
    rw [h, Real.sqrt_sq (by norm_num), Int.floor_eq_iff]
    constructor <;> norm_num

/-! ## The text written for a sample -/

theorem columns_append (a b : List Tok) : columns (a ++ b) = columns a + columns b := by
  simp [columns]

theorem gt_iupac_ne_tab (n : Nat) : gt_iupac n ≠ '\t' := by
  unfold gt_iupac
  by_cases h : n < 10
  · interval_cases n <;> decide
  · rw [List.getD_eq_default _ _ (by simpa using h)]
    decide

theorem trans_base_ne_tab (c : Char) : trans_base c ≠ '\t' := by
  unfold trans_base
  split <;> decide

theorem str3_tabs (s : Nat → Char) (h : ∀ j, j < 3 → s j ≠ '\t') :
    (str3 s).count '\t' = 0 := by
  rw [List.count_eq_zero]
  intro hmem
  have hm := (List.takeWhile_sublist _).subset hmem
  simp only [List.mem_cons, List.mem_singleton, List.not_mem_nil, or_false] at hm
  rcases hm with hm | hm | hm
  · exact h 0 (by omega) hm.symm
  · exact h 1 (by omega) hm.symm
  · exact h 2 (by omega) hm.symm

theorem output_cpg_tmp_ne_tab (cx_p : Nat → Char) (j : Nat) : output_cpg_tmp cx_p j ≠ '\t' := by
  unfold output_cpg_tmp
  simp only [Function.update_apply]
  split
  · exact trans_base_ne_tab _
  · split
    · exact trans_base_ne_tab _
    · split
      · exact trans_base_ne_tab _
      · decide

theorem columns_tail (x : ℝ) (c0 c1 c2 c3 : Int) :
    columns [Tok.lit "\t", Tok.dbl x, Tok.lit "\t", Tok.int c0, Tok.lit "\t", Tok.int c1,
      Tok.lit "\t", Tok.int c2, Tok.lit "\t", Tok.int c3] = 5 := by
  simp only [columns, List.map_cons, List.map_nil, Tok.tabs, List.sum_cons, List.sum_nil]
  decide

theorem columns_strand_present (pos : Nat) (g : gt_meth) (mq_p : Option (Nat → Int))
    (ix : Nat) (meth : ℝ) (hg : g.skip = false) :
    columns (output_cpg_strand_sample pos g mq_p ix meth) = 7 := by
  unfold output_cpg_strand_sample
  simp only [hg, Bool.not_false, if_true]
  rw [columns_append, columns_tail]
  have hhead : columns [Tok.lit "\t", Tok.chr (gt_iupac g.max_gt), Tok.lit "\tGQ=",
      Tok.int (calc_phred (1 - Real.exp (g.gt_prob g.max_gt)))] = 2 := by
    simp only [columns, List.map_cons, List.map_nil, Tok.tabs, List.sum_cons, List.sum_nil,
      if_neg (gt_iupac_ne_tab g.max_gt)]
    decide
  have hdq : ∀ n : Int, columns [Tok.lit ";DQ=", Tok.int n] = 0 := fun n => by
    simp only [columns, List.map_cons, List.map_nil, Tok.tabs, List.sum_cons, List.sum_nil]
    decide
  have hmq : ∀ n : Int, columns [Tok.lit ";MQ=", Tok.int n] = 0 := fun n => by
    simp only [columns, List.map_cons, List.map_nil, Tok.tabs, List.sum_cons, List.sum_nil]
    decide
  simp only [apply_ite columns, columns_append, hhead, hdq, hmq, add_zero, ite_self]

theorem columns_noncpg_present (pos : Nat) (g : gt_meth) (mq_p : Option (Nat → Int))
    (ix : Nat) (cx_sz : Int) (cx_p : Nat → Char) (meth : ℝ) (hg : g.skip = false)
    (hcx : ∀ j, cx_p j ≠ '\t') :
    columns (output_cpg_noncpg_sample pos g mq_p ix cx_sz cx_p meth) = 7 := by
  unfold output_cpg_noncpg_sample
  simp only [hg, Bool.not_false, if_true]
  rw [columns_append, columns_tail]
  have hhead : columns [Tok.lit "\t", Tok.chr (gt_iupac g.max_gt), Tok.lit "\tGQ=",
      Tok.int (calc_phred (1 - Real.exp (g.gt_prob g.max_gt)))] = 2 := by
    simp only [columns, List.map_cons, List.map_nil, Tok.tabs, List.sum_cons, List.sum_nil,
      if_neg (gt_iupac_ne_tab g.max_gt)]
    decide
  have hdq : ∀ n : Int, columns [Tok.lit ";DQ=", Tok.int n] = 0 := fun n => by
    simp only [columns, List.map_cons, List.map_nil, Tok.tabs, List.sum_cons, List.sum_nil]
    decide
  have hmq : ∀ n : Int, columns [Tok.lit ";MQ=", Tok.int n] = 0 := fun n => by
    simp only [columns, List.map_cons, List.map_nil, Tok.tabs, List.sum_cons, List.sum_nil]
    decide
  have hcx1 : columns [Tok.lit ";CX=", Tok.str (str3 fun j => cx_p (j + 2))] = 0 := by
    simp only [columns, List.map_cons, List.map_nil, Tok.tabs, List.sum_cons, List.sum_nil,
      str3_tabs _ fun j _ => hcx (j + 2)]
    decide
  have hcx2 : columns [Tok.lit ";CX=", Tok.str (str3 (output_cpg_tmp cx_p))] = 0 := by
    simp only [columns, List.map_cons, List.map_nil, Tok.tabs, List.sum_cons, List.sum_nil,
      str3_tabs _ fun j _ => output_cpg_tmp_ne_tab cx_p j]
    decide
  simp only [apply_ite columns, columns_append, hhead, hdq, hmq, hcx1, hcx2, add_zero,
    ite_self]

theorem columns_combined_present (g1 g2 : gt_meth) (mq_p1 mq_p2 : Option (Nat → Int))
    (ix : Nat) (m : ℝ) (h1 : g1.skip = false) (h2 : g2.skip = false) :
    ∃ r, output_cpg_combined_sample g1 g2 mq_p1 mq_p2 ix m = some r ∧ columns r = 7 := by
  obtain ⟨mq, hmq0⟩ := output_cpg_mq_some mq_p1 mq_p2 g1 g2 ix
  unfold output_cpg_combined_sample
  simp only [h1, h2, Bool.or_self, Bool.not_false, if_true, hmq0, Option.map_some']
  refine ⟨_, rfl, ?_⟩
  rw [columns_append, columns_tail]
  have hhead : columns [Tok.lit "\t", Tok.chr (gt_iupac g1.max_gt),
      Tok.chr (gt_iupac g2.max_gt), Tok.lit "\tGQ=",
      Tok.int (calc_phred (1 - Real.exp (g1.gt_prob g1.max_gt + g2.gt_prob g2.max_gt)))] =
      2 := by
    simp only [columns, List.map_cons, List.map_nil, Tok.tabs, List.sum_cons, List.sum_nil,
      if_neg (gt_iupac_ne_tab g1.max_gt), if_neg (gt_iupac_ne_tab g2.max_gt)]
    decide
  have hdq : ∀ n : Int, columns [Tok.lit ";DQ=", Tok.int n] = 0 := fun n => by
    simp only [columns, List.map_cons, List.map_nil, Tok.tabs, List.sum_cons, List.sum_nil]
    decide
  have hmq : ∀ n : Int, columns [Tok.lit ";MQ=", Tok.int n] = 0 := fun n => by
    simp only [columns, List.map_cons, List.map_nil, Tok.tabs, List.sum_cons, List.sum_nil]
    decide
  simp only [apply_ite columns, columns_append, hhead, hdq, hmq, add_zero, ite_self]

/-- Claim C11, the code at the failing inputs. In the non-CpG output a skipped
sample gets 8 tab-separated placeholder columns where a present sample (with a
context free of tabs) gets 7; in the strand-specific and the combined CpG mode
both get 7. -/
theorem C11_noncpg_placeholder_width (pos : Nat) (g gs : gt_meth)
    (mq_p mq_p2 : Option (Nat → Int)) (ix : Nat) (cx_sz : Int) (cx_p : Nat → Char) (meth : ℝ)
    (hg : g.skip = false) (hs : gs.skip = true) (hcx : ∀ j, cx_p j ≠ '\t') :
    columns (output_cpg_noncpg_sample pos gs mq_p ix cx_sz cx_p meth) = 8 ∧
    columns (output_cpg_noncpg_sample pos g mq_p ix cx_sz cx_p meth) = 7 ∧
    columns (output_cpg_strand_sample pos gs mq_p ix meth) = 7 ∧
    columns (output_cpg_strand_sample pos g mq_p ix meth) = 7 ∧
    (∃ r, output_cpg_combined_sample gs g mq_p mq_p2 ix meth = some r ∧ columns r = 7) ∧
    (∃ r, output_cpg_combined_sample g g mq_p mq_p2 ix meth = some r ∧ columns r = 7) := by
  refine ⟨?_, columns_noncpg_present pos g mq_p ix cx_sz cx_p meth hg hcx, ?_,
    columns_strand_present pos g mq_p ix meth hg, ?_,
    columns_combined_present g g mq_p mq_p2 ix meth hg hg⟩
  · unfold output_cpg_noncpg_sample
    simp only [hs, Bool.not_true, Bool.false_eq_true, if_false]
    decide
  · unfold output_cpg_strand_sample
    simp only [hs, Bool.not_true, Bool.false_eq_true, if_false]
    decide
  · refine ⟨[Tok.lit "\t.\t.\t.\t.\t.\t.\t."], ?_, by decide⟩
    unfold output_cpg_combined_sample
    simp [hs]

theorem C11_witness :
    ((call [0, 0, 0, 0, 3, 0, 9, 0] 7 false).skip = false ∧
      (call [0, 0, 0, 0, 0, 0, 0, 0] 7 true).skip = true ∧
      ∀ j : Nat, (fun _ : Nat => 'C') j ≠ '\t') ∧
    columns (output_cpg_noncpg_sample 1 (call [0, 0, 0, 0, 0, 0, 0, 0] 7 true) none 0 3
      (fun _ => 'C') 0) = 8 ∧
    columns (output_cpg_noncpg_sample 1 (call [0, 0, 0, 0, 3, 0, 9, 0] 7 false) none 0 3
      (fun _ => 'C') 0) = 7 :=
  ⟨⟨rfl, rfl, fun _ => (by decide : 'C' ≠ '\t')⟩,
    (C11_noncpg_placeholder_width 1 (call [0, 0, 0, 0, 3, 0, 9, 0] 7 false)
      (call [0, 0, 0, 0, 0, 0, 0, 0] 7 true) none none 0 3 (fun _ => 'C') 0 rfl rfl
      fun _ => (by decide : 'C' ≠ '\t')).1,
    (C11_noncpg_placeholder_width 1 (call [0, 0, 0, 0, 3, 0, 9, 0] 7 false)
      (call [0, 0, 0, 0, 0, 0, 0, 0] 7 true) none none 0 3 (fun _ => 'C') 0 rfl rfl
      fun _ => (by decide : 'C' ≠ '\t')).2.1⟩

theorem output_cpg_totals_of_zero (g1 g2 : gt_meth)
    (h : ∀ k, k < 8 → g1.counts k = 0 ∧ g2.counts k = 0) :
    (output_cpg_totals g1 g2).1 + (output_cpg_totals g1 g2).2 = 0 := by
  rw [output_cpg_totals_eq]
  simp [(h 0 (by omega)).1, (h 1 (by omega)).1, (h 2 (by omega)).1, (h 3 (by omega)).1,
    (h 4 (by omega)).1, (h 5 (by omega)).1, (h 6 (by omega)).1, (h 7 (by omega)).1,
    (h 0 (by omega)).2, (h 1 (by omega)).2, (h 2 (by omega)).2, (h 3 (by omega)).2,
    (h 4 (by omega)).2, (h 5 (by omega)).2, (h 6 (by omega)).2, (h 7 (by omega)).2]

theorem combined_sample_no_mq (a1 a2 : Nat → Int) (g1 g2 : gt_meth) (ix : Nat) (m : ℝ)
    (h : (output_cpg_totals g1 g2).1 + (output_cpg_totals g1 g2).2 = 0) :
    ∃ r, output_cpg_combined_sample g1 g2 (some a1) (some a2) ix m = some r ∧
      Tok.lit ";MQ=" ∉ r := by
  unfold output_cpg_combined_sample
  rw [output_cpg_mq_of_totals_zero a1 a2 g1 g2 ix h]
  by_cases hskip : (!(g1.skip || g2.skip)) = true
  · rw [if_pos hskip]
    refine ⟨_, rfl, ?_⟩
    have hneg : ¬ ((-1 : Int) ≥ 0) := by decide
    simp only [hneg, if_false]
    split <;> simp
  · rw [if_neg hskip]
    exact ⟨_, rfl, by simp⟩

/-- Claim C18. Guarded mapping-quality division in the combined mode: when both
strands carry a mapping quality the computation of `mq` never divides by 0 (it
always has a value); when `n1 + n2 = 0`, as when all 16 read counts are 0, `mq`
keeps the sentinel -1 and the text of the sample has no `MQ` field. -/
theorem C18_output_cpg_mq_guarded (a1 a2 : Nat → Int) (g1 g2 : gt_meth) (ix : Nat) (m : ℝ) :
    (∃ mq, output_cpg_mq (some a1) (some a2) g1 g2 ix = some mq) ∧
    ((output_cpg_totals g1 g2).1 + (output_cpg_totals g1 g2).2 = 0 →
      output_cpg_mq (some a1) (some a2) g1 g2 ix = some (-1) ∧
      ∃ r, output_cpg_combined_sample g1 g2 (some a1) (some a2) ix m = some r ∧
        Tok.lit ";MQ=" ∉ r) ∧
    ((∀ k, k < 8 → g1.counts k = 0 ∧ g2.counts k = 0) →
      (output_cpg_totals g1 g2).1 + (output_cpg_totals g1 g2).2 = 0) :=
  ⟨output_cpg_mq_some (some a1) (some a2) g1 g2 ix,
    fun h => ⟨output_cpg_mq_of_totals_zero a1 a2 g1 g2 ix h,
      combined_sample_no_mq a1 a2 g1 g2 ix m h⟩,
    output_cpg_totals_of_zero g1 g2⟩

theorem C18_witness :
    (∀ k, k < 8 → (call [] 4 false).counts k = 0 ∧ (call [] 7 false).counts k = 0) ∧
    output_cpg_mq (some fun _ => 60) (some fun _ => 60) (call [] 4 false) (call [] 7 false) 0 =
      some (-1) ∧
    ∃ r, output_cpg_combined_sample (call [] 4 false) (call [] 7 false) (some fun _ => 60)
      (some fun _ => 60) 0 0 = some r ∧ Tok.lit ";MQ=" ∉ r := by
  have h0 : ∀ k, k < 8 → (call [] 4 false).counts k = 0 ∧ (call [] 7 false).counts k = 0 :=
    fun _ _ => ⟨rfl, rfl⟩
  have hc := C18_output_cpg_mq_guarded (fun _ => 60) (fun _ => 60) (call [] 4 false)
    (call [] 7 false) 0 0
  exact ⟨h0, hc.2.1 (hc.2.2 h0)⟩

end GemBS
